import Mathlib

/-!
Verification development for the ai-briefing processing pipeline
(briefing/stages/{dedup,packer,rerank}.py), shallowly embedded in Lean.

External library calls (unicodedata NFKC normalization, hashlib md5,
math.tanh, sklearn cosine_similarity, the cross-encoder scorer and the
tiktoken tokenizer) are modelled as explicit function parameters: the
pipeline code treats them as opaque numeric oracles.  Python floats are
modelled by rationals; a Python float division raises ZeroDivisionError
exactly when the denominator is zero, which we model with Option/Except.
Python dicts holding items are modelled by the Item structure below;
absent keys are none, and Python truthiness of a string u is `u != ""`.
-/

namespace Briefing

/-- One ingested item (a Python dict in the source).  `text` is always a
string (the code reads it with `get("text", "")`); the other keys are
optional. -/
structure Item where
  text : String
  url : Option String := none
  timestamp : Option ℚ := none
  merged_urls : Option (List String) := none
  urls : Option (List String) := none
  deriving DecidableEq, Repr, Inhabited

/-- A packed sentence-level excerpt (dataclass Excerpt in packer.py). -/
structure Excerpt where
  text : String
  urls : List String := []
  deriving DecidableEq, Repr, Inhabited

/-- One cluster as consumed by pack (a Python dict). -/
structure Cluster where
  topic_id : Option String := none
  topic_label : Option String := none
  label : Option String := none
  items : List Item := []
  deriving DecidableEq, Repr, Inhabited

/-- dataclass PackedTopic in packer.py. -/
structure PackedTopic where
  topic_id : Option String := none
  label : String := ""
  excerpts : List Excerpt := []
  deriving DecidableEq, Repr, Inhabited

/-- The artifact dict returned by pack. -/
structure Artifact where
  title : String
  date : String
  topics : List PackedTopic
  deriving DecidableEq, Repr, Inhabited

/-! ## Python string helpers

Python `str.strip()` and the regex class `\s` both use the Unicode
whitespace notion; we model that class by one fixed predicate (ASCII
whitespace plus the common Unicode space characters), which is all the
proofs depend on. -/

/-- Whitespace class used by Python str.strip and the regex `\s`. -/
def isPySpace (c : Char) : Bool :=
  c = ' ' || c = '\t' || c = '\n' || c = '\r' || c = '\x0b' || c = '\x0c' ||
  c = ' ' || c = ' ' || c = ' ' || c = '　'

/-- Python str.strip on a character list: drop leading and trailing
whitespace. -/
def pyStripL (l : List Char) : List Char :=
  ((l.dropWhile isPySpace).reverse.dropWhile isPySpace).reverse

/-- Python str.strip on a string. -/
def pyStrip (s : String) : String :=
  (pyStripL s.data).asString

/-- Model of re.sub applied with pattern `\s+` and replacement a single
space: every maximal whitespace run becomes one ASCII space.  The
recursion keeps the last character of each run, emitted as a space. -/
def collapseWS : List Char → List Char
  | [] => []
  | [c] => if isPySpace c then [' '] else [c]
  | c :: r :: rest =>
    if isPySpace c then
      (if isPySpace r then collapseWS (r :: rest)
       else ' ' :: collapseWS (r :: rest))
    else c :: collapseWS (r :: rest)

/-- Character map of re.sub with the curly double quote class mapped to
a straight double quote. -/
def mapDQuote (c : Char) : Char :=
  if c = '“' ∨ c = '”' then '"' else c

/-- Character map of re.sub with the curly single quote class mapped to
a straight single quote. -/
def mapSQuote (c : Char) : Char :=
  if c = '‘' ∨ c = '’' then '\'' else c

/-- The pure post-processing part of _canonicalize, acting after the
external NFKC normalization: strip, collapse whitespace, straighten
double quotes, then single quotes (in source order). -/
def canonPost (l : List Char) : List Char :=
  ((collapseWS (pyStripL l)).map mapDQuote).map mapSQuote

/-- dedup._canonicalize.  The call unicodedata.normalize("NFKC", ...) is
external, passed in as `nfkc`.  A None text argument is modelled by an
Option input; Python `text or ""` maps None to the empty string. -/
def canonicalize (nfkc : String → String) (text : Option String) : String :=
  (canonPost (nfkc (text.getD "")).data).asString

/-! ## Packer (briefing/stages/packer.py)

The token length comes from packer._try_token_len, which uses the
external tiktoken encoder when importable and otherwise a character
heuristic.  The packing functions are parameterized over the token
length estimator; `tokenLenFallback` is the heuristic branch. -/

/-- Fallback branch of _try_token_len when tiktoken is unavailable:
Python max(1, int(len(text) / 4)).  For a nonnegative length, float
division by 4 is exact and int() truncates, so this is flooring
division. -/
def tokenLenFallback (text : String) : Nat :=
  max 1 (text.length / 4)

/-- Sentence-ending characters of the _sent_split regex class. -/
def isSentEnd (c : Char) : Bool :=
  c = '。' || c = '！' || c = '？' || c = '.' || c = '!' || c = '?'

/-- Worker for _sent_split: split at every maximal whitespace run whose
preceding character is a sentence ender (regex lookbehind).  `inSep` is
true while consuming the remainder of a separator run; `acc` holds the
current segment reversed. -/
def sentSplitGo (inSep : Bool) (acc : List Char) : List Char → List (List Char)
  | [] => [acc.reverse]
  | c :: rest =>
    if inSep && acc.isEmpty && isPySpace c then
      sentSplitGo true [] rest
    else if (match acc with | p :: _ => isSentEnd p | [] => false) && isPySpace c then
      acc.reverse :: sentSplitGo true [] rest
    else
      sentSplitGo false (c :: acc) rest

/-- packer._sent_split: strip the text, split on whitespace following a
sentence terminator, and drop empty segments. -/
def sentSplit (text : String) : List String :=
  ((sentSplitGo false [] (pyStripL text.data)).map List.asString).filter (fun s => s ≠ "")

/-- URL list chosen for an item by pack_cluster, following the Python
truthiness chain merged_urls or (urls or []) or ([url] if url else []).
An empty list and an empty string are falsy. -/
def itemUrls (it : Item) : List String :=
  let mu := it.merged_urls.getD []
  if mu ≠ [] then mu
  else
    let us := it.urls.getD []
    if us ≠ [] then us
    else match it.url with
      | some u => if u ≠ "" then [u] else []
      | none => []

/-- Mutable state of the pack_cluster loops: the set of accepted
sentence texts, the running token total, the accepted excerpts, and
whether the early return has fired. -/
structure PackState where
  used : List String := []
  total : Nat := 0
  out : List Excerpt := []
  stopped : Bool := false
  deriving DecidableEq, Repr, Inhabited

/-- One iteration of the inner sentence loop of pack_cluster.  `urls`
is the (already str-filtered) URL list of the enclosing item. -/
def packSentStep (tokenLen : String → Nat) (minTokens maxTokens : Nat)
    (urls : List String) (st : PackState) (s : String) : PackState :=
  if st.stopped then st
  else
    let sNorm := pyStrip s
    if sNorm = "" ∨ sNorm ∈ st.used then st
    else
      let tl := tokenLen sNorm
      if st.total + tl > maxTokens ∧ st.total ≥ minTokens then
        { st with stopped := true }
      else
        { used := st.used ++ [sNorm], total := st.total + tl,
          out := st.out ++ [⟨sNorm, urls⟩], stopped := false }

/-- One iteration of the outer item loop of pack_cluster: consider at
most 8 sentences of the item and fold the sentence step over them. -/
def packItemStep (tokenLen : String → Nat) (minTokens maxTokens : Nat)
    (st : PackState) (it : Item) : PackState :=
  let sents := (sentSplit it.text).take 8
  let urls := (itemUrls it).filter (fun u => u ≠ "")
  sents.foldl (packSentStep tokenLen minTokens maxTokens urls) st

/-- packer.pack_cluster.  The early `return out` is modelled by the
`stopped` flag, which freezes the state. -/
def packCluster (tokenLen : String → Nat) (items : List Item)
    (minTokens maxTokens : Nat) : List Excerpt :=
  (items.foldl (packItemStep tokenLen minTokens maxTokens) {}).out

/-- Label of a packed topic: Python c.get("topic_label") or
c.get("label", ""), where None and the empty string are falsy. -/
def clusterLabel (c : Cluster) : String :=
  match c.topic_label with
  | some s => if s ≠ "" then s else c.label.getD ""
  | none => c.label.getD ""

/-- Estimated token consumption of a list of excerpts, as computed by
pack: sum of the estimated token length of each excerpt text. -/
def excerptTokens (tokenLen : String → Nat) (ex : List Excerpt) : Nat :=
  (ex.map (fun e => tokenLen e.text)).sum

/-- The cluster loop of pack.  `remaining` is the remaining global
budget (clamped at zero, as in Python max(0, remaining - used)); the
loop body runs once per cluster and breaks after appending when the
remaining budget reaches zero. -/
def packGo (tokenLen : String → Nat) (perClusterMin perClusterMax : Nat) :
    List Cluster → Nat → List PackedTopic
  | [], _ => []
  | c :: cs, remaining =>
    let cap := if remaining > perClusterMin then min perClusterMax remaining else remaining
    let ex := packCluster tokenLen c.items perClusterMin cap
    let topic : PackedTopic := ⟨c.topic_id, clusterLabel c, ex⟩
    let used := excerptTokens tokenLen ex
    let remaining2 := remaining - used
    if remaining2 = 0 then [topic]
    else topic :: packGo tokenLen perClusterMin perClusterMax cs remaining2

/-- packer.pack. -/
def pack (tokenLen : String → Nat) (clusters : List Cluster)
    (tokenBudget perClusterMin perClusterMax : Nat)
    (title dateIso : String) : Artifact :=
  ⟨title, dateIso, packGo tokenLen perClusterMin perClusterMax clusters tokenBudget⟩

/-- Total estimated tokens over every excerpt of every topic of an
artifact. -/
def artifactTokens (tokenLen : String → Nat) (a : Artifact) : Nat :=
  (a.topics.map (fun t => excerptTokens tokenLen t.excerpts)).sum

/-! ## Fingerprint dedup (briefing/stages/dedup.py)

hashlib.md5 is external; _simhash is parameterized over the token hash
`hashFn`.  math.tanh is external; the representative score is
parameterized over `tanhFn`.  Python int.bit_count is modelled by a
fuel-based popCount (fuel n suffices since n < 2^n). -/

/-- Fuel-driven binary bit counting. -/
def popCountAux : Nat → Nat → Nat
  | 0, _ => 0
  | fuel + 1, n => n % 2 + popCountAux fuel (n / 2)

/-- Number of set bits of a natural number (Python int.bit_count). -/
def popCount (n : Nat) : Nat := popCountAux n n

/-- dedup._hamming: bit count of the xor. -/
def hamming (a b : Nat) : Nat := popCount (a ^^^ b)

/-- Python str.lower, modelled characterwise. -/
def pyLower (s : String) : String := (s.data.map Char.toLower).asString

/-- Word characters of the regex class `\w` (alphanumerics and the
underscore; the Unicode extension is approximated by isAlphanum). -/
def isWordChar (c : Char) : Bool := c.isAlphanum || c = '_'

/-- Maximal runs of characters satisfying p, in order (model of
re.findall applied to a one-class-plus pattern). -/
def splitRuns (p : Char → Bool) : List Char → List (List Char)
  | [] => []
  | c :: rest =>
    let ts := splitRuns p rest
    if p c then
      match rest with
      | r :: _ =>
        if p r then
          match ts with
          | t :: ts2 => (c :: t) :: ts2
          | [] => [[c]]
        else [c] :: ts
      | [] => [[c]]
    else ts

/-- dedup._simhash: majority vote over token hash bits.  For each bit
position i below `bits`, the signed weight adds 1 when bit i of the
token hash is set and subtracts 1 otherwise; the fingerprint sets the
bits with nonnegative weight. -/
def simhash (hashFn : String → Nat) (text : String) (bits : Nat) : Nat :=
  let toks := (splitRuns isWordChar (pyLower text).data).map List.asString
  let v : Nat → Int := fun i =>
    (toks.map (fun tk => if Nat.testBit (hashFn tk) i then (1 : Int) else -1)).sum
  ((List.range bits).filter (fun i => 0 ≤ v i)).foldl (fun acc i => acc ||| (1 <<< i)) 0

/-- Window value of band b of a fingerprint: the source expression
(sh >> (b * r)) & ((1 << r) - 1). -/
def bandKey (sh r b : Nat) : Nat := (sh >>> (b * r)) &&& ((1 <<< r) - 1)

/-- Band width used by _band_buckets: max(1, bits // max(1, bands)). -/
def bandWidth (bits bands : Nat) : Nat := max 1 (bits / max 1 bands)

/-- buckets.setdefault(key, []).append(idx): append idx to the entry of
`key`, creating the entry at the end on a miss (Python dicts preserve
insertion order). -/
def bucketInsert (key : Nat × Nat) (idx : Nat) :
    List ((Nat × Nat) × List Nat) → List ((Nat × Nat) × List Nat)
  | [] => [(key, [idx])]
  | (k, l) :: rest =>
    if k = key then (k, l ++ [idx]) :: rest
    else (k, l) :: bucketInsert key idx rest

/-- dedup._band_buckets, as an insertion-ordered association list from
(band, window value) to the list of item indices in the bucket. -/
def bandBuckets (simhashes : List Nat) (bits bands : Nat) :
    List ((Nat × Nat) × List Nat) :=
  let r := bandWidth bits bands
  (List.range simhashes.length).foldl (fun bks idx =>
    (List.range bands).foldl (fun bks2 b =>
      bucketInsert (b, bandKey (simhashes.getD idx 0) r b) idx bks2) bks) []

/-- Place index i into the first family having a member within the
Hamming threshold, if any. -/
def placeFam (shs : List Nat) (hamThresh : Nat) (i : Nat) :
    List (List Nat) → Option (List (List Nat))
  | [] => none
  | g :: gs =>
    if g.any (fun j => hamming (shs.getD i 0) (shs.getD j 0) ≤ hamThresh) then
      some ((g ++ [i]) :: gs)
    else (placeFam shs hamThresh i gs).map (g :: ·)

/-- Family formation inside one bucket: greedy first-match scan in
candidate order; unmatched indices start a new family at the end. -/
def formFamilies (shs : List Nat) (hamThresh : Nat) (cand : List Nat) :
    List (List Nat) :=
  cand.foldl (fun fams i =>
    match placeFam shs hamThresh i fams with
    | some fams2 => fams2
    | none => fams ++ [[i]]) []

/-- Representative score of dedup._select_representative.  Python float
division ts_score / (ts_score + 1.0) raises ZeroDivisionError when the
timestamp is -1, modelled by none.  A missing timestamp contributes a
zero recency term (the isinstance check fails for None). -/
def scoreItem (tanhFn : ℚ → ℚ) (items : List Item) (i : Nat) : Option ℚ :=
  let it := items.getD i default
  let txt := pyStrip it.text
  let length : ℚ := txt.length
  let tsScore : ℚ := it.timestamp.getD 0
  if tsScore + 1 = 0 then none
  else some (7/10 * tanhFn (length / 800) + 3/10 * (tsScore / (tsScore + 1)))

/-- dedup._select_representative: Python max with a key function keeps
the first index attaining the maximal score.  Scoring every index may
raise (none); an empty index list would raise in Python and is likewise
none (families are never empty). -/
def selectRep (tanhFn : ℚ → ℚ) (items : List Item) (idxs : List Nat) :
    Option Nat :=
  match idxs with
  | [] => none
  | i :: rest => do
    let s0 ← scoreItem tanhFn items i
    let best ← rest.foldlM (fun (acc : Nat × ℚ) j => do
      let sj ← scoreItem tanhFn items j
      pure (if sj > acc.2 then (j, sj) else acc)) (i, s0)
    pure best.1

/-- Accumulated dedup_fingerprint loop state: `keep` is the ordered
list of representatives seen so far (also serving as the `seen` set),
and `merged` maps a representative to the URLs merged into it. -/
structure FpState where
  keep : List Nat := []
  merged : Nat → List String := fun _ => []

/-- Process one family of one bucket: select its representative, record
it, and extend the merged URL list with the truthy URLs of all family
members. -/
def fpFamilyStep (tanhFn : ℚ → ℚ) (items : List Item) (st : FpState)
    (grp : List Nat) : Option FpState := do
  let rep ← selectRep tanhFn items grp
  let st1 : FpState :=
    if rep ∈ st.keep then st
    else { keep := st.keep ++ [rep], merged := st.merged }
  let urls := grp.filterMap (fun idx =>
    match (items.getD idx default).url with
    | some u => if u ≠ "" then some u else none
    | none => none)
  pure { st1 with
    merged := fun k => if k = rep then st1.merged k ++ urls else st1.merged k }

/-- First-occurrence de-duplication of a list, keeping order (Python
list(dict.fromkeys(xs))). -/
def dedupKeepOrder (xs : List String) : List String :=
  xs.foldl (fun acc u => if u ∈ acc then acc else acc ++ [u]) []

/-- Ascending insertion used to model Python sorted. -/
def insertSorted (n : Nat) : List Nat → List Nat
  | [] => [n]
  | m :: ms => if n ≤ m then n :: m :: ms else m :: insertSorted n ms

/-- Python sorted on a list of naturals. -/
def sortNat (l : List Nat) : List Nat := l.foldr insertSorted []

/-- dedup.dedup_fingerprint.  Returns none when the representative
scoring raises (ZeroDivisionError for a -1 timestamp); otherwise the
retained items in ascending original order, with merged_urls set on a
representative whenever its merged URL list is non-empty. -/
def dedupFingerprint (hashFn : String → Nat) (tanhFn : ℚ → ℚ)
    (nfkc : String → String) (items : List Item)
    (bits : Nat := 64) (bands : Nat := 8) (hamThresh : Nat := 3) :
    Option (List Item) :=
  if items = [] then some items
  else do
    let texts := items.map (fun x => canonicalize nfkc (some x.text))
    let shs := texts.map (fun t => simhash hashFn t bits)
    let buckets := bandBuckets shs bits bands
    let st ← buckets.foldlM (fun st (bucket : (Nat × Nat) × List Nat) =>
      (formFamilies shs hamThresh bucket.2).foldlM
        (fpFamilyStep tanhFn items) st) ({} : FpState)
    let keepSorted := sortNat st.keep
    pure (keepSorted.map (fun i =>
      let it := items.getD i default
      if st.merged i ≠ [] then
        let repUrl := match it.url with
          | some u => if u ≠ "" then [u] else []
          | none => []
        { it with merged_urls := some (dedupKeepOrder (repUrl ++ st.merged i)) }
      else it))

/-! ## Semantic dedup (briefing/stages/dedup.py, dedup_semantic)

Embedding vectors are rational lists; sklearn cosine_similarity is an
external numeric routine, modelled by the parameter `cosSim` applied to
pairs of vectors. -/

/-- One anchor iteration of the greedy removal loops: for anchor i,
scan the indices `js` (the range strictly above i) and remove every
still-kept j whose similarity to i reaches the threshold, recording i
as its representative.  The state is (keep_mask, rep_for). -/
def semInner (sims : Nat → Nat → ℚ) (threshold : ℚ) (i : Nat)
    (st : List Bool × List Nat) (js : List Nat) : List Bool × List Nat :=
  js.foldl (fun st2 j =>
    if st2.1.getD j false = true ∧ sims i j ≥ threshold then
      (st2.1.set j false, st2.2.set j i)
    else st2) st

/-- The removal kernel of dedup_semantic: process anchors in ascending
order, skipping anchors already removed. -/
def semKernel (sims : Nat → Nat → ℚ) (n : Nat) (threshold : ℚ) :
    List Bool × List Nat :=
  (List.range n).foldl (fun st i =>
    if st.1.getD i false = true then
      semInner sims threshold i st ((List.range n).drop (i + 1))
    else st)
    (List.replicate n true, List.range n)

/-- Position of a kept original index in the filtered list: the number
of kept indices strictly below it (the idx_map of the source). -/
def semIdxMap (keepMask : List Bool) (oldIdx : Nat) : Nat :=
  ((List.range oldIdx).filter (fun k => keepMask.getD k false)).length

/-- Truthy URL of an item, if any. -/
def truthyUrl (it : Item) : Option String :=
  match it.url with
  | some u => if u ≠ "" then some u else none
  | none => none

/-- Filtered item list of dedup_semantic: kept items in order; with
merge_sources, merged_urls is overwritten with the deduplicated list
holding just the retained item's own truthy URL. -/
def semFiltered (items : List Item) (keepMask : List Bool)
    (mergeSources : Bool) : List Item :=
  ((List.range items.length).filter (fun i => keepMask.getD i false)).map (fun i =>
    let it := items.getD i default
    if mergeSources then
      { it with merged_urls := some (dedupKeepOrder
          (match truthyUrl it with | some u => [u] | none => [])) }
    else it)

/-- List update at an index (identity when out of range). -/
def listModify (f : Item → Item) : Nat → List Item → List Item
  | _, [] => []
  | 0, x :: xs => f x :: xs
  | n + 1, x :: xs => x :: listModify f n xs

/-- filtered_items[new_idx].setdefault("merged_urls", []) followed by
the guarded append of one URL. -/
def addMergedUrl (u : String) (it : Item) : Item :=
  let cur := it.merged_urls.getD []
  { it with merged_urls := some (if u ∈ cur then cur else cur ++ [u]) }

/-- The second merge_sources loop of dedup_semantic: attach each
removed item's truthy URL to its representative's filtered entry. -/
def semAttach (items : List Item) (keepMask : List Bool) (repFor : List Nat)
    (filtered : List Item) : List Item :=
  (List.range items.length).foldl (fun fl j =>
    if keepMask.getD j false = false then
      match truthyUrl (items.getD j default) with
      | some u => listModify (addMergedUrl u) (semIdxMap keepMask (repFor.getD j 0)) fl
      | none => fl
    else fl) filtered

/-- Boolean mask filter, modelling embs[keep_mask]. -/
def maskFilter (embs : List (List ℚ)) (keepMask : List Bool) : List (List ℚ) :=
  ((List.range embs.length).filter (fun i => keepMask.getD i false)).map
    (fun i => embs.getD i [])

/-- dedup.dedup_semantic.  Mismatched lengths raise ValueError; else
returns the masked embeddings and the filtered items with merged
URLs. -/
def dedupSemantic (cosSim : List ℚ → List ℚ → ℚ) (embs : List (List ℚ))
    (items : List Item) (threshold : ℚ := 92/100) (mergeSources : Bool := true) :
    Except String (List (List ℚ) × List Item) :=
  if embs.length ≠ items.length then
    .error "embs/items length mismatch for semantic dedup"
  else
    .ok (maskFilter embs
          (semKernel (fun i j => cosSim (embs.getD i []) (embs.getD j []))
            embs.length threshold).1,
        if mergeSources then
          semAttach items
            (semKernel (fun i j => cosSim (embs.getD i []) (embs.getD j []))
              embs.length threshold).1
            (semKernel (fun i j => cosSim (embs.getD i []) (embs.getD j []))
              embs.length threshold).2
            (semFiltered items
              (semKernel (fun i j => cosSim (embs.getD i []) (embs.getD j []))
                embs.length threshold).1 mergeSources)
        else
          semFiltered items
            (semKernel (fun i j => cosSim (embs.getD i []) (embs.getD j []))
              embs.length threshold).1 mergeSources)

/-! ## Reranker (briefing/stages/rerank.py)

The CrossEncoder relevance scorer is external, passed in as `ceScores`
(model name, query, candidates, one score per candidate); sklearn
cosine similarity is `cosSim` as before. -/

/-- Insertion step of a descending-by-score sort: index i goes before
the first index with a strictly smaller score, hence after earlier
indices with an equal score. -/
def insDesc (scores : List ℚ) (i : Nat) : List Nat → List Nat
  | [] => [i]
  | j :: js =>
    if scores.getD i 0 > scores.getD j 0 then i :: j :: js
    else j :: insDesc scores i js

/-- Descending argsort of a score list (np.argsort of the negated
scores), inserting indices in ascending order so that earlier indices
come first on ties. -/
def argsortDesc (scores : List ℚ) : List Nat :=
  (List.range scores.length).foldl (fun acc i => insDesc scores i acc) []

/-- rerank._rerank_ce: score all (query, candidate) pairs with the
external cross-encoder and sort indices by descending score. -/
def rerankCE (ceScores : String → String → List String → List ℚ)
    (modelName query : String) (candidates : List String) : List Nat :=
  argsortDesc (ceScores modelName query candidates)

/-- Pointwise mean of a list of vectors (cand_embs.mean(axis=0)). -/
def meanVec (vs : List (List ℚ)) : List ℚ :=
  match vs with
  | [] => []
  | v :: _ => (List.range v.length).map (fun k =>
      ((vs.map (fun w => w.getD k 0)).sum) / vs.length)

/-- One greedy MMR pick: the first index of `remaining` strictly
maximizing lam * sim_q - (1 - lam) * max similarity to the selected
set, starting from the sentinel -1e9. -/
def mmrPick (simQ : Nat → ℚ) (simMat : Nat → Nat → ℚ) (lam : ℚ)
    (selected remaining : List Nat) : Option Nat :=
  (remaining.foldl (fun (acc : Option (Nat × ℚ)) i =>
    let div := (selected.map (fun s => simMat i s)).foldl max 0
    let score := lam * simQ i - (1 - lam) * div
    match acc with
    | some (_, bs) => if score > bs then some (i, score) else acc
    | none => if score > -1000000000 then some (i, score) else none) none).map (·.1)

/-- Greedy selection loop of _mmr_select, with fuel bounding the number
of picks (each iteration removes one index from `remaining`). -/
def mmrLoop (simQ : Nat → ℚ) (simMat : Nat → Nat → ℚ) (lam : ℚ) (topk : Nat) :
    Nat → List Nat → List Nat → List Nat
  | 0, selected, remaining => selected ++ remaining
  | _ + 1, selected, [] => selected
  | fuel + 1, selected, r :: rs =>
    if selected.length < topk then
      match mmrPick simQ simMat lam selected (r :: rs) with
      | some b => mmrLoop simQ simMat lam topk fuel (selected ++ [b])
          ((r :: rs).filter (fun x => x ≠ b))
      | none => selected ++ (r :: rs)
    else selected ++ (r :: rs)

/-- rerank._mmr_select.  The first pick is the argmax of the query
similarity (np.argmax, first maximum); the remaining set of small
naturals iterates in ascending order, as a CPython set of small
integers does. -/
def mmrSelect (cosSim : List ℚ → List ℚ → ℚ) (candEmbs : List (List ℚ))
    (queryVec : Option (List ℚ)) (lam : ℚ) (topk : Nat) : List Nat :=
  let n := candEmbs.length
  if n = 0 then []
  else
    let q := queryVec.getD (meanVec candEmbs)
    let simQ : Nat → ℚ := fun i => cosSim (candEmbs.getD i []) q
    let simMat : Nat → Nat → ℚ := fun i j =>
      cosSim (candEmbs.getD i []) (candEmbs.getD j [])
    let first := ((List.range n).foldl (fun (acc : Nat × ℚ) i =>
      if simQ i > acc.2 then (i, simQ i) else acc) (0, simQ 0)).1
    mmrLoop simQ simMat lam topk n [first] ((List.range n).filter (fun x => x ≠ first))

/-- rerank.rerank_candidates.  ValueError raises are modelled with the
error channel (the configuration error taxonomy of the design).  Python
falsiness of model_name covers both None and the empty string. -/
def rerankCandidates (ceScores : String → String → List String → List ℚ)
    (cosSim : List ℚ → List ℚ → ℚ) (queryText : String)
    (candidateTexts : List String) (strategy : String)
    (modelName : Option String := none) (candEmbs : Option (List (List ℚ)) := none)
    (queryVec : Option (List ℚ) := none) (mmrLambda : ℚ := 4/10) :
    Except String (List Nat) :=
  if strategy = "none" then .ok (List.range candidateTexts.length)
  else if strategy = "ce" then
    match modelName with
    | some m =>
      if m ≠ "" then .ok (rerankCE ceScores m queryText candidateTexts)
      else .error "CE rerank requires model_name"
    | none => .error "CE rerank requires model_name"
  else if strategy = "mmr" then
    match candEmbs with
    | some embs => .ok (mmrSelect cosSim embs queryVec mmrLambda candidateTexts.length)
    | none => .error "MMR requires candidate embeddings"
  else if strategy = "ce+mmr" then
    match modelName with
    | some m =>
      if m ≠ "" then
        let ceOrder := rerankCE ceScores m queryText candidateTexts
        match candEmbs with
        | some embs =>
          let embsOrdered := ceOrder.map (fun i => embs.getD i [])
          let mmrLocal := mmrSelect cosSim embsOrdered queryVec mmrLambda
            candidateTexts.length
          .ok (mmrLocal.map (fun i => ceOrder.getD i 0))
        | none => .ok ceOrder
      else .error "CE rerank requires model_name"
    | none => .error "CE rerank requires model_name"
  else .error ("Unknown rerank strategy: " ++ strategy)

/-! ## Theorems

The Batteries rational arithmetic operations are irreducible by
default, which blocks elaboration-time evaluation of concrete runs;
they are restored to the ordinary transparency for this file so that
closed counterexamples and witnesses evaluate with decide. -/

attribute [local semireducible] Rat.add Rat.mul Rat.sub Rat.inv

/-- Token estimate following the words of the spec sentence for C8:
text length divided by 4, rounded up, minimum 1. -/
def specTokenLenCeil (n : Nat) : Nat := max 1 ((n + 3) / 4)

/-- Token estimate following the corrected reading: text length divided
by 4 rounded down (Python int() truncation of a nonnegative float),
minimum 1, written with the rational floor to mirror the float
division of the source. -/
def specTokenLenFloor (n : Nat) : Nat := max 1 ⌊(n : ℚ) / 4⌋₊

/-- C8 counterexample: on a six-character text the heuristic branch of
_try_token_len yields 1, while length divided by 4 rounded up with
minimum 1 is 2. -/
theorem C8_tokenLen_not_ceil :
    tokenLenFallback "abcdef" = 1 ∧ specTokenLenCeil ("abcdef".length) = 2 := by
  constructor <;> decide

/-- C8 (amended): when the external tokenizer is unavailable, the
estimated token length is the character length divided by 4 rounded
DOWN (int() truncates the nonnegative float), with a minimum of 1. -/
theorem C8_tokenLen_floor (text : String) :
    tokenLenFallback text = specTokenLenFloor text.length := by
  unfold tokenLenFallback specTokenLenFloor
  congr 1
  rw [show ((4 : ℚ)) = ((4 : ℕ) : ℚ) by norm_num, Nat.floor_div_eq_div]

/-- C1 counterexample: with min_tokens 5 and max_tokens 1, the first
sentence costs 2 tokens, pushing the running total 0 over max_tokens
while the total is below min_tokens; the claim says the sentence is
rejected, but pack_cluster accepts it. -/
theorem C1_over_budget_accepted :
    tokenLenFallback "abcdefgh." = 2 ∧ 0 + 2 > 1 ∧ 0 < 5 ∧
    packCluster tokenLenFallback [{ text := "abcdefgh." }] 5 1 =
      [{ text := "abcdefgh.", urls := [] }] := by
  refine ⟨by decide, by decide, by decide, by decide⟩

/-- C1 (amended): when the next candidate sentence would push the
running total over max_tokens, packing for the cluster stops with the
sentence rejected exactly if the total has already reached min_tokens;
if the total is still below min_tokens the over-budget sentence is
ACCEPTED (appended to the output) and packing continues. -/
theorem C1_step_behavior (tokenLen : String → Nat) (minT maxT : Nat)
    (urls : List String) (st : PackState) (s : String)
    (hrun : st.stopped = false) (hne : pyStrip s ≠ "")
    (hnew : pyStrip s ∉ st.used)
    (hover : st.total + tokenLen (pyStrip s) > maxT) :
    (st.total ≥ minT →
      packSentStep tokenLen minT maxT urls st s = { st with stopped := true }) ∧
    (st.total < minT →
      packSentStep tokenLen minT maxT urls st s =
        { used := st.used ++ [pyStrip s],
          total := st.total + tokenLen (pyStrip s),
          out := st.out ++ [⟨pyStrip s, urls⟩], stopped := false }) := by
  constructor
  · intro hmin
    unfold packSentStep
    rw [if_neg (by simp [hrun]), if_neg (by simp [hne, hnew]),
      if_pos ⟨hover, hmin⟩]
  · intro hmin
    unfold packSentStep
    rw [if_neg (by simp [hrun]), if_neg (by simp [hne, hnew]),
      if_neg (by simp [hover]; omega)]

/-- Closed witness for C1_step_behavior at a concrete state. -/
theorem C1_step_behavior_witness :
    ((0 : Nat) ≥ 0 →
      packSentStep tokenLenFallback 0 1 [] {} "abcdefgh." =
        { ({} : PackState) with stopped := true }) ∧
    ((0 : Nat) < 0 →
      packSentStep tokenLenFallback 0 1 [] {} "abcdefgh." =
        { used := [pyStrip "abcdefgh."],
          total := 0 + tokenLenFallback (pyStrip "abcdefgh."),
          out := [⟨pyStrip "abcdefgh.", []⟩], stopped := false }) := by
  have h := C1_step_behavior tokenLenFallback 0 1 [] {} "abcdefgh."
    (by decide) (by decide) (by decide) (by decide)
  exact ⟨fun _ => (h.1 (by decide)), fun hc => absurd hc (by decide)⟩

/-- C2 counterexample: global token_budget 2, per-cluster min 1 and max
10; the single packed sentence costs 3 estimated tokens because the
min floor forces accepting it, so the total exceeds the budget. -/
theorem C2_budget_exceeded :
    artifactTokens tokenLenFallback
      (pack tokenLenFallback [{ items := [{ text := "abcdefghijkl." }] }]
        2 1 10 "t" "d") = 3 ∧ ¬ (3 ≤ 2) := by
  constructor <;> decide

/-- Helper for C2: over any cluster list and any remaining budget, the
token totals of all packed topics except the last never exceed the
remaining budget (a topic other than the last leaves a positive
remainder, so its consumption was fully covered). -/
theorem packGo_dropLast_le (tokenLen : String → Nat) (pmin pmax : Nat) :
    ∀ (cs : List Cluster) (r : Nat),
      (((packGo tokenLen pmin pmax cs r).dropLast).map
        (fun t => excerptTokens tokenLen t.excerpts)).sum ≤ r := by
  intro cs
  induction cs with
  | nil => intro r; simp [packGo]
  | cons c cs ih =>
    intro r
    simp only [packGo]
    by_cases h0 :
      r - excerptTokens tokenLen
        (packCluster tokenLen c.items pmin
          (if r > pmin then min pmax r else r)) = 0
    · simp [h0]
    · rw [if_neg h0]
      set cap := if r > pmin then min pmax r else r with hcap
      set used := excerptTokens tokenLen (packCluster tokenLen c.items pmin cap)
        with huse
      have hlt : used < r := by omega
      cases hrest : packGo tokenLen pmin pmax cs (r - used) with
      | nil => simp
      | cons t ts =>
        rw [← hrest, List.dropLast_cons_of_ne_nil (by simp [hrest])]
        simp only [List.map_cons, List.sum_cons]
        have := ih (r - used)
        omega

/-- C2 (amended): across multiple clusters the sum of the estimated
tokens of all excerpts of every topic EXCEPT the final packed topic is
at most the configured global token_budget; only the final topic can
overshoot (by a sentence accepted while its cluster total was still
below per_cluster_min). -/
theorem C2_budget_dropLast (tokenLen : String → Nat) (clusters : List Cluster)
    (tokenBudget perClusterMin perClusterMax : Nat) (title dateIso : String) :
    (((pack tokenLen clusters tokenBudget perClusterMin perClusterMax
        title dateIso).topics.dropLast).map
      (fun t => excerptTokens tokenLen t.excerpts)).sum ≤ tokenBudget :=
  packGo_dropLast_le tokenLen perClusterMin perClusterMax clusters tokenBudget

/-! ### Bit counting lemmas for the LSH banding claim -/

theorem popCountAux_zero : ∀ fuel, popCountAux fuel 0 = 0 := by
  intro fuel
  induction fuel with
  | zero => rfl
  | succ f ih => simpa [popCountAux] using ih

theorem popCountAux_congr : ∀ f g m, m ≤ f → m ≤ g →
    popCountAux f m = popCountAux g m := by
  intro f
  induction f with
  | zero =>
    intro g m hf _
    interval_cases m
    rw [popCountAux_zero, popCountAux_zero]
  | succ f ih =>
    intro g m hf hg
    rcases Nat.eq_zero_or_pos m with hm | hm
    · subst hm; rw [popCountAux_zero, popCountAux_zero]
    · obtain ⟨g2, rfl⟩ : ∃ g2, g = g2 + 1 := ⟨g - 1, by omega⟩
      simp only [popCountAux]
      have hd : m / 2 ≤ f := by omega
      have hd2 : m / 2 ≤ g2 := by omega
      rw [ih g2 (m / 2) hd hd2]

/-- Unfolding equation of popCount: low bit plus the count of the
shifted number. -/
theorem popCount_two_step (n : Nat) : popCount n = n % 2 + popCount (n / 2) := by
  rcases Nat.eq_zero_or_pos n with h | h
  · subst h; rfl
  · obtain ⟨m, rfl⟩ : ∃ m, n = m + 1 := ⟨n - 1, by omega⟩
    show popCountAux (m + 1) (m + 1) = _
    simp only [popCountAux]
    rw [popCountAux_congr m ((m + 1) / 2) ((m + 1) / 2) (by omega) le_rfl]
    rfl

theorem popCount_pos : ∀ z, z ≠ 0 → 1 ≤ popCount z := by
  intro z
  induction z using Nat.strong_induction_on with
  | _ z ih =>
    intro hz
    rw [popCount_two_step]
    rcases Nat.mod_two_eq_zero_or_one z with h | h
    · have hz2 : z / 2 ≠ 0 := by omega
      have := ih (z / 2) (by omega) hz2
      omega
    · omega

/-- Splitting the bit count at position k: low k bits plus the rest. -/
theorem popCount_split : ∀ (k z : Nat),
    popCount z = popCount (z % 2 ^ k) + popCount (z >>> k) := by
  intro k
  induction k with
  | zero =>
    intro z
    rw [pow_zero, Nat.mod_one, Nat.shiftRight_eq_div_pow, pow_zero, Nat.div_one]
    have h0 : popCount 0 = 0 := rfl
    omega
  | succ k ih =>
    intro z
    rw [popCount_two_step z, ih (z / 2)]
    have h1 : z % 2 ^ (k + 1) % 2 = z % 2 :=
      Nat.mod_mod_of_dvd z (dvd_pow_self 2 (Nat.succ_ne_zero k))
    have h2 : z % 2 ^ (k + 1) / 2 = z / 2 % 2 ^ k := by
      have := Nat.mod_mul_right_div_self z 2 (2 ^ k)
      rwa [← pow_succ'] at this
    have h3 : z >>> (k + 1) = (z / 2) >>> k := by
      rw [Nat.shiftRight_eq_div_pow, Nat.shiftRight_eq_div_pow,
        Nat.div_div_eq_div_mul, ← pow_succ']
    rw [popCount_two_step (z % 2 ^ (k + 1)), h1, h2, h3]
    omega

theorem popCount_ne_zero_of_testBit (z p : Nat) (h : z.testBit p = true) :
    1 ≤ popCount z := by
  apply popCount_pos
  intro hz
  rw [hz, Nat.zero_testBit] at h
  exact Bool.false_ne_true h

/-- Pigeonhole core: if every one of `bands` disjoint windows of width
r contains a set bit of z, then z has at least `bands` set bits. -/
theorem popCount_ge_bands (r : Nat) : ∀ (bands z : Nat),
    (∀ b < bands, ∃ p < r, z.testBit (b * r + p) = true) →
    bands ≤ popCount z := by
  intro bands
  induction bands with
  | zero => intro z _; exact Nat.zero_le _
  | succ bands ih =>
    intro z h
    obtain ⟨p, hp, hbit⟩ := h 0 (Nat.succ_pos bands)
    have hlow : 1 ≤ popCount (z % 2 ^ r) := by
      apply popCount_ne_zero_of_testBit (z % 2 ^ r) p
      rw [Nat.testBit_mod_two_pow]
      have hb2 : z.testBit p = true := by simpa using hbit
      simp [hp, hb2]
    have hhigh : bands ≤ popCount (z >>> r) := by
      apply ih
      intro b hb
      obtain ⟨q, hq, hbit2⟩ := h (b + 1) (by omega)
      refine ⟨q, hq, ?_⟩
      rw [Nat.testBit_shiftRight]
      have : r + (b * r + q) = (b + 1) * r + q := by ring
      rw [this]
      exact hbit2
    rw [popCount_split r z]
    omega

/-- A differing band window forces a set bit of the xor inside the
window. -/
theorem exists_diff_bit_of_bandKey_ne (x y r b : Nat)
    (h : bandKey x r b ≠ bandKey y r b) :
    ∃ p < r, (x ^^^ y).testBit (b * r + p) = true := by
  have hk : ∀ z : Nat, bandKey z r b = (z >>> (b * r)) &&& (2 ^ r - 1) := by
    intro z
    rw [bandKey, Nat.one_shiftLeft]
  by_contra hnone
  push_neg at hnone
  apply h
  rw [hk, hk]
  apply Nat.eq_of_testBit_eq
  intro p
  rw [Nat.testBit_and, Nat.testBit_and, Nat.testBit_shiftRight,
    Nat.testBit_shiftRight, Nat.testBit_two_pow_sub_one]
  by_cases hp : p < r
  · have hbit := hnone p hp
    rw [Nat.testBit_xor] at hbit
    have heqb : x.testBit (b * r + p) = y.testBit (b * r + p) := by
      rcases hx : x.testBit (b * r + p) <;> rcases hy : y.testBit (b * r + p) <;>
        simp_all
    rw [heqb]
  · simp [hp]

/-- Membership specification of one bucket: the indices whose band b
window equals v, in ascending order. -/
def bucketSpec (shs : List Nat) (bits bands b v : Nat) : List Nat :=
  (List.range shs.length).filter (fun idx =>
    decide (b < bands) && decide (bandKey (shs.getD idx 0) (bandWidth bits bands) b = v))

theorem lookup_cons_key {β : Type} (k : Nat × Nat) (l : β)
    (rest : List ((Nat × Nat) × β)) : ((k, l) :: rest).lookup k = some l := by
  simp [List.lookup]

theorem lookup_cons_ne {β : Type} (k k2 : Nat × Nat) (l : β)
    (rest : List ((Nat × Nat) × β)) (h : k ≠ k2) :
    ((k2, l) :: rest).lookup k = rest.lookup k := by
  simp [List.lookup, show (k == k2) = false from beq_eq_false_iff_ne.mpr h]

theorem lookup_bucketInsert (key k : Nat × Nat) (idx : Nat)
    (bks : List ((Nat × Nat) × List Nat)) :
    (bucketInsert key idx bks).lookup k =
      if k = key then some ((bks.lookup key).getD [] ++ [idx])
      else bks.lookup k := by
  induction bks with
  | nil =>
    simp only [bucketInsert]
    by_cases h : k = key
    · subst h
      rw [if_pos rfl, lookup_cons_key]
      rfl
    · rw [if_neg h, lookup_cons_ne _ _ _ _ h]
  | cons e rest ih =>
    obtain ⟨k2, l⟩ := e
    simp only [bucketInsert]
    by_cases h2 : k2 = key
    · rw [if_pos h2]
      subst h2
      by_cases h : k = k2
      · subst h
        rw [if_pos rfl, lookup_cons_key, lookup_cons_key]
        rfl
      · rw [if_neg h, lookup_cons_ne _ _ _ _ h, lookup_cons_ne _ _ _ _ h]
    · rw [if_neg h2]
      by_cases h : k = k2
      · subst h
        rw [lookup_cons_key, if_neg h2, lookup_cons_key]
      · rw [lookup_cons_ne _ _ _ _ h, ih,
          lookup_cons_ne _ _ _ _ (fun hh => h2 hh.symm),
          lookup_cons_ne _ _ _ _ h]

/-- Lookup after inserting one index into every band bucket: the entry
grows by the index exactly at the key of a listed band. -/
theorem lookup_foldBands (sh r idx b v : Nat) (bs : List Nat) (hnd : bs.Nodup) :
    ∀ acc : List ((Nat × Nat) × List Nat),
      ((bs.foldl (fun a b2 => bucketInsert (b2, bandKey sh r b2) idx a)
          acc).lookup (b, v)) =
        if b ∈ bs ∧ bandKey sh r b = v
        then some ((acc.lookup (b, v)).getD [] ++ [idx])
        else acc.lookup (b, v) := by
  induction bs with
  | nil => intro acc; simp
  | cons b2 rest ih =>
    intro acc
    have hnd2 : rest.Nodup := (List.nodup_cons.mp hnd).2
    have hb2r : b2 ∉ rest := (List.nodup_cons.mp hnd).1
    simp only [List.foldl_cons]
    rw [ih hnd2]
    by_cases hmem : b ∈ rest ∧ bandKey sh r b = v
    · rw [if_pos hmem]
      have hbne : b ≠ b2 := fun hh => hb2r (hh ▸ hmem.1)
      rw [lookup_bucketInsert,
        if_neg (fun hh => hbne (congrArg Prod.fst hh)),
        if_pos ⟨List.mem_cons_of_mem _ hmem.1, hmem.2⟩]
    · rw [if_neg hmem, lookup_bucketInsert]
      by_cases hkey : (b, v) = (b2, bandKey sh r b2)
      · have hb : b = b2 := congrArg Prod.fst hkey
        have hv : v = bandKey sh r b2 := congrArg Prod.snd hkey
        rw [if_pos hkey, if_pos ⟨hb ▸ List.mem_cons_self b2 rest, by rw [hb, hv]⟩]
        rw [show (b2, bandKey sh r b2) = (b, v) from hkey.symm]
      · rw [if_neg hkey,
          if_neg (fun hh => by
            rcases List.mem_cons.mp hh.1 with h1 | h1
            · exact hkey (by subst h1; rw [hh.2])
            · exact hmem ⟨h1, hh.2⟩)]

/-- Lookup after the whole index fold of _band_buckets, relative to an
arbitrary accumulator. -/
theorem lookup_foldIdx (shs : List Nat) (bits bands b v : Nat) :
    ∀ (is2 : List Nat) (acc : List ((Nat × Nat) × List Nat)),
      ((is2.foldl (fun bks idx =>
          (List.range bands).foldl (fun bks2 b2 =>
            bucketInsert (b2, bandKey (shs.getD idx 0) (bandWidth bits bands) b2)
              idx bks2) bks) acc).lookup (b, v)) =
        (if (is2.filter (fun idx => decide (b < bands) &&
              decide (bandKey (shs.getD idx 0) (bandWidth bits bands) b = v))) = []
         then acc.lookup (b, v)
         else some ((acc.lookup (b, v)).getD [] ++
           is2.filter (fun idx => decide (b < bands) &&
             decide (bandKey (shs.getD idx 0) (bandWidth bits bands) b = v)))) := by
  intro is2
  induction is2 with
  | nil => intro acc; simp
  | cons idx rest ih =>
    intro acc
    simp only [List.foldl_cons, List.filter_cons]
    have hfb := lookup_foldBands (shs.getD idx 0) (bandWidth bits bands) idx b v
      (List.range bands) (List.nodup_range bands)
    by_cases hhit : (decide (b < bands) &&
        decide (bandKey (shs.getD idx 0) (bandWidth bits bands) b = v)) = true
    · rw [if_pos hhit, ih]
      have hcond : b ∈ List.range bands ∧
          bandKey (shs.getD idx 0) (bandWidth bits bands) b = v := by
        obtain ⟨h1, h2⟩ := Bool.and_eq_true_iff.mp hhit
        exact ⟨List.mem_range.mpr (of_decide_eq_true h1), of_decide_eq_true h2⟩
      rw [hfb _, if_pos hcond]
      by_cases hrest : (rest.filter (fun idx2 => decide (b < bands) &&
          decide (bandKey (shs.getD idx2 0) (bandWidth bits bands) b = v))) = []
      · simp [hrest]
      · simp [hrest, List.append_assoc]
    · have hcond : ¬ (b ∈ List.range bands ∧
          bandKey (shs.getD idx 0) (bandWidth bits bands) b = v) := fun hh =>
        hhit (Bool.and_eq_true_iff.mpr
          ⟨decide_eq_true (List.mem_range.mp hh.1), decide_eq_true hh.2⟩)
      have hacc : List.lookup (b, v) (List.foldl (fun a b2 =>
          bucketInsert (b2, bandKey (shs.getD idx 0) (bandWidth bits bands) b2)
            idx a) acc (List.range bands)) = List.lookup (b, v) acc := by
        rw [hfb _, if_neg hcond]
      rw [if_neg hhit, ih, hacc]

/-- Characterization of _band_buckets: the bucket of key (b, v) is
exactly the ascending list of indices with b < bands whose band b
window equals v, and exists exactly when that list is non-empty. -/
theorem lookup_bandBuckets (shs : List Nat) (bits bands b v : Nat) :
    (bandBuckets shs bits bands).lookup (b, v) =
      if bucketSpec shs bits bands b v = [] then none
      else some (bucketSpec shs bits bands b v) := by
  unfold bandBuckets bucketSpec
  rw [lookup_foldIdx shs bits bands b v (List.range shs.length) []]
  rfl

/-- C4 counterexample: with bits 8 and bands 2, fingerprints 0 and 17
are at Hamming distance 2, within the claimed bound bits/bands - 1 = 3,
yet no bucket of _band_buckets contains both indices (the two differing
bits fall in different bands). -/
theorem C4_within_claimed_bound_no_collision :
    hamming 0 17 = 2 ∧ 2 ≤ 8 / 2 - 1 ∧
    bandBuckets [0, 17] 8 2 =
      [((0, 0), [0]), ((1, 0), [0]), ((0, 1), [1]), ((1, 1), [1])] ∧
    (∀ e ∈ bandBuckets [0, 17] 8 2, ¬ (0 ∈ e.2 ∧ 1 ∈ e.2)) := by
  refine ⟨by decide, by decide, by decide, by decide⟩

/-- C4 (amended): the guaranteed collision bound is bands - 1, not
bits/bands - 1: whenever two fingerprints of the list are within
Hamming distance bands - 1, some band b below bands has an identical
window value for both, and the corresponding bucket of _band_buckets
contains both indices. -/
theorem C4_band_collision (bits bands : Nat) (shs : List Nat) (i j : Nat)
    (hb : 1 ≤ bands) (hi : i < shs.length) (hj : j < shs.length)
    (hham : hamming (shs.getD i 0) (shs.getD j 0) ≤ bands - 1) :
    ∃ b, b < bands ∧ ∃ l,
      (bandBuckets shs bits bands).lookup
        (b, bandKey (shs.getD i 0) (bandWidth bits bands) b) = some l ∧
      i ∈ l ∧ j ∈ l := by
  set x := shs.getD i 0 with hx
  set y := shs.getD j 0 with hy
  set r := bandWidth bits bands with hr
  have hex : ∃ b, b < bands ∧ bandKey x r b = bandKey y r b := by
    by_contra hno
    push_neg at hno
    have hge : bands ≤ popCount (x ^^^ y) :=
      popCount_ge_bands r bands (x ^^^ y) (fun b hb2 =>
        exists_diff_bit_of_bandKey_ne x y r b (hno b hb2))
    unfold hamming at hham
    omega
  obtain ⟨b, hb2, hkeq⟩ := hex
  refine ⟨b, hb2, ?_⟩
  rw [lookup_bandBuckets]
  have hispec : i ∈ bucketSpec shs bits bands b (bandKey x r b) := by
    unfold bucketSpec
    rw [List.mem_filter, List.mem_range]
    exact ⟨hi, Bool.and_eq_true_iff.mpr ⟨decide_eq_true hb2, decide_eq_true rfl⟩⟩
  have hjspec : j ∈ bucketSpec shs bits bands b (bandKey x r b) := by
    unfold bucketSpec
    rw [List.mem_filter, List.mem_range]
    exact ⟨hj, Bool.and_eq_true_iff.mpr
      ⟨decide_eq_true hb2, decide_eq_true hkeq.symm⟩⟩
  have hne : bucketSpec shs bits bands b (bandKey x r b) ≠ [] := by
    intro hh
    rw [hh] at hispec
    exact List.not_mem_nil i hispec
  rw [if_neg hne]
  exact ⟨_, rfl, hispec, hjspec⟩

/-- Closed witness for C4_band_collision: fingerprints 0 and 1 with 2
bands are at Hamming distance 1 = bands - 1 and indeed share band 1. -/
theorem C4_band_collision_witness :
    (1 ≤ 2 ∧ 0 < 2 ∧ 1 < 2 ∧
      hamming (List.getD [0, 1] 0 0) (List.getD [0, 1] 1 0) ≤ 2 - 1) ∧
    (∃ b, b < 2 ∧ ∃ l,
      (bandBuckets [0, 1] 8 2).lookup
        (b, bandKey (List.getD [0, 1] 0 0) (bandWidth 8 2) b) = some l ∧
      0 ∈ l ∧ 1 ∈ l) :=
  ⟨⟨by decide, by decide, by decide, by decide⟩,
    C4_band_collision 8 2 [0, 1] 0 1 (by decide) (by decide) (by decide) (by decide)⟩

/-! ### Semantic dedup chain behavior (C3) -/

/-- Concrete similarity for the C3 counterexample: neighbouring integer
embeddings are similar (cosine 1), distant ones are not (0). -/
def c3CosSim : List ℚ → List ℚ → ℚ :=
  fun v w => if (v.getD 0 0 - w.getD 0 0) ^ 2 ≤ 1 then 1 else 0

/-- Embeddings for the C3 counterexample. -/
def c3Embs : List (List ℚ) := [[0], [1], [2]]

/-- Items for the C3 counterexample. -/
def c3Items : List Item :=
  [{ text := "A", url := some "uA" }, { text := "B", url := some "uB" },
   { text := "C", url := some "uC" }]

/-- C3 counterexample: three items whose similarities satisfy
sim(A,B) ≥ threshold, sim(B,C) ≥ threshold and sim(A,C) < threshold.
The claim says dedup_semantic removes both B and C onto A; in fact C
stays retained (keep_mask[2] is true) and the output still contains C,
because B is removed first and no longer anchors C. -/
theorem C3_chain_counterexample :
    (c3CosSim [0] [1] ≥ 1/2 ∧ c3CosSim [1] [2] ≥ 1/2 ∧
      ¬ c3CosSim [0] [2] ≥ 1/2) ∧
    (semKernel (fun i j => c3CosSim (c3Embs.getD i []) (c3Embs.getD j []))
      3 (1/2)).1.getD 2 false = true ∧
    (dedupSemantic c3CosSim c3Embs c3Items (1/2) true).toOption =
      some ([[0], [2]],
        [{ text := "A", url := some "uA", merged_urls := some ["uA", "uB"] },
         { text := "C", url := some "uC", merged_urls := some ["uC"] }]) := by
  refine ⟨⟨by decide, by decide, by decide⟩, by decide, by decide⟩

/-- C3 (amended): with exactly three items A, B, C at indices 0, 1, 2
whose similarities satisfy sim(A,B) ≥ threshold, sim(B,C) ≥ threshold
and sim(A,C) < threshold, the greedy kernel of dedup_semantic removes
only B, recording A as its representative, and retains both A and C;
once B is removed it stops acting as a comparison anchor, so C never
collapses despite sim(B,C) ≥ threshold. -/
theorem C3_chain_behavior (sims : Nat → Nat → ℚ) (t : ℚ)
    (h01 : sims 0 1 ≥ t) (h12 : sims 1 2 ≥ t) (h02 : ¬ sims 0 2 ≥ t) :
    semKernel sims 3 t = ([true, false, true], [0, 0, 2]) := by
  have h01' : (sims 0 1 ≥ t) = True := eq_true h01
  have h02' : (sims 0 2 ≥ t) = False := eq_false h02
  have hr3 : List.range 3 = [0, 1, 2] := by decide
  simp [semKernel, semInner, hr3, h01', h02']

/-- Closed witness for C3_chain_behavior at a concrete similarity
matrix. -/
theorem C3_chain_behavior_witness :
    ((fun i j => if i = 0 ∧ j = 2 then (0 : ℚ) else 1) 0 1 ≥ 1/2 ∧
     (fun i j => if i = 0 ∧ j = 2 then (0 : ℚ) else 1) 1 2 ≥ 1/2 ∧
     ¬ (fun i j => if i = 0 ∧ j = 2 then (0 : ℚ) else 1) 0 2 ≥ 1/2) ∧
    semKernel (fun i j => if i = 0 ∧ j = 2 then (0 : ℚ) else 1) 3 (1/2) =
      ([true, false, true], [0, 0, 2]) :=
  ⟨⟨by decide, by decide, by decide⟩,
    C3_chain_behavior _ _ (by decide) (by decide) (by decide)⟩

/-! ### Reranker error conditions (C9) -/

/-- Error test for the rerank result (a raised ValueError in the
source, labelled ConfigError by the design taxonomy). -/
def isError {ε α : Type} : Except ε α → Bool
  | .error _ => true
  | .ok _ => false

/-- C9: rerank_candidates raises exactly when strategy ce or ce+mmr
lacks a (truthy) model identifier, strategy mmr lacks candidate
embeddings, or the strategy name is unknown; and strategy ce+mmr with
a model identifier but no candidate embeddings succeeds with the pure
cross-encoder relevance ordering. -/
theorem C9_rerank_errors (ceScores : String → String → List String → List ℚ)
    (cosSim : List ℚ → List ℚ → ℚ) (queryText : String)
    (candidateTexts : List String) (strategy : String)
    (modelName : Option String) (candEmbs : Option (List (List ℚ)))
    (queryVec : Option (List ℚ)) (mmrLambda : ℚ) :
    (isError (rerankCandidates ceScores cosSim queryText candidateTexts
        strategy modelName candEmbs queryVec mmrLambda) = true ↔
      (((strategy = "ce" ∨ strategy = "ce+mmr") ∧
          (modelName = none ∨ modelName = some "")) ∨
       (strategy = "mmr" ∧ candEmbs = none) ∨
       (strategy ≠ "none" ∧ strategy ≠ "ce" ∧ strategy ≠ "mmr" ∧
         strategy ≠ "ce+mmr"))) ∧
    (∀ m, modelName = some m → m ≠ "" → strategy = "ce+mmr" →
      candEmbs = none →
      rerankCandidates ceScores cosSim queryText candidateTexts strategy
          modelName candEmbs queryVec mmrLambda =
        .ok (rerankCE ceScores m queryText candidateTexts)) := by
  constructor
  · by_cases h1 : strategy = "none"
    · subst h1; simp [rerankCandidates, isError]
    · by_cases h2 : strategy = "ce"
      · subst h2
        rcases modelName with _ | m
        · simp [rerankCandidates, isError]
        · by_cases hm : m = ""
          · subst hm; simp [rerankCandidates, isError]
          · simp [rerankCandidates, isError, hm]
      · by_cases h3 : strategy = "mmr"
        · subst h3
          rcases candEmbs with _ | embs
          · simp [rerankCandidates, isError]
          · simp [rerankCandidates, isError]
        · by_cases h4 : strategy = "ce+mmr"
          · subst h4
            rcases modelName with _ | m
            · simp [rerankCandidates, isError]
            · by_cases hm : m = ""
              · subst hm; simp [rerankCandidates, isError]
              · rcases candEmbs with _ | embs
                · simp [rerankCandidates, isError, hm]
                · simp [rerankCandidates, isError, hm]
          · simp [rerankCandidates, isError, h1, h2, h3, h4]
  · intro m hm hm2 hstrat hembs
    subst hstrat
    subst hm
    subst hembs
    simp [rerankCandidates, hm2]

/-- Closed witness for C9_rerank_errors: with strategy ce+mmr, a model
identifier and no embeddings, the result is the cross-encoder ordering
(MMR degraded gracefully, no error). -/
theorem C9_rerank_errors_witness :
    rerankCandidates (fun _ _ cands => cands.map (fun c => (c.length : ℚ)))
        (fun _ _ => 0) "q" ["aa", "bbbb", "c"] "ce+mmr" (some "m") none none (4/10) =
      .ok (rerankCE (fun _ _ cands => cands.map (fun c => (c.length : ℚ)))
        "m" "q" ["aa", "bbbb", "c"]) :=
  (C9_rerank_errors (fun _ _ cands => cands.map (fun c => (c.length : ℚ)))
      (fun _ _ => 0) "q" ["aa", "bbbb", "c"] "ce+mmr" (some "m") none none
      (4/10)).2 "m" rfl (by decide) rfl rfl

/-! ### Fingerprint dedup totality (C5) -/

/-- A score computation succeeds whenever the scored item does not
carry the timestamp -1 (the only way the denominator ts + 1 can be
zero). -/
theorem scoreItem_isSome (tanhFn : ℚ → ℚ) (items : List Item) (i : Nat)
    (hts : ∀ it ∈ items, ∀ t, it.timestamp = some t → t + 1 ≠ 0) :
    (scoreItem tanhFn items i).isSome = true := by
  have hden : (items.getD i default).timestamp.getD 0 + 1 ≠ 0 := by
    by_cases hi : i < items.length
    · have hmem : items.getD i default ∈ items := by
        rw [List.getD_eq_getElem items default hi]
        exact List.getElem_mem hi
      rcases hcase : (items.getD i default).timestamp with _ | t
      · rw [Option.getD_none]
        norm_num
      · rw [Option.getD_some]
        exact hts _ hmem t hcase
    · rw [List.getD_eq_default items default (by omega),
        show (default : Item).timestamp = none from rfl, Option.getD_none]
      norm_num
  unfold scoreItem
  rw [if_neg hden]
  rfl

/-- Folding an Option-valued step over a list succeeds when every step
succeeds. -/
theorem foldlM_isSome {α σ : Type} (f : σ → α → Option σ) :
    ∀ (l : List α), (∀ s a, a ∈ l → (f s a).isSome = true) →
      ∀ init, (l.foldlM f init).isSome = true := by
  intro l
  induction l with
  | nil => intro _ init; simp
  | cons a rest ih =>
    intro h init
    rw [List.foldlM_cons]
    obtain ⟨s, hs⟩ := Option.isSome_iff_exists.mp (h init a (List.mem_cons_self a rest))
    rw [hs]
    exact ih (fun s2 a2 ha2 => h s2 a2 (List.mem_cons_of_mem a ha2)) s

theorem bind_isSome_of {α β : Type} (x : Option α) (f : α → Option β)
    (hx : x.isSome = true) (hf : ∀ a, (f a).isSome = true) :
    (x >>= f).isSome = true := by
  obtain ⟨a, ha⟩ := Option.isSome_iff_exists.mp hx
  rw [ha]
  exact hf a

/-- Representative selection succeeds on a non-empty index list when
no scored item carries timestamp -1. -/
theorem selectRep_isSome (tanhFn : ℚ → ℚ) (items : List Item) (idxs : List Nat)
    (hne : idxs ≠ [])
    (hts : ∀ it ∈ items, ∀ t, it.timestamp = some t → t + 1 ≠ 0) :
    (selectRep tanhFn items idxs).isSome = true := by
  match idxs with
  | [] => exact absurd rfl hne
  | i :: rest =>
    simp only [selectRep]
    refine bind_isSome_of _ _ (scoreItem_isSome tanhFn items i hts) (fun s0 => ?_)
    refine bind_isSome_of _ _ ?_ (fun best => rfl)
    apply foldlM_isSome
    intro s a _
    obtain ⟨sa, hsa⟩ := Option.isSome_iff_exists.mp (scoreItem_isSome tanhFn items a hts)
    simp [hsa]

/-- placeFam preserves non-emptiness of every family. -/
theorem placeFam_ne_nil (shs : List Nat) (ht i : Nat) :
    ∀ (fams fams2 : List (List Nat)), placeFam shs ht i fams = some fams2 →
      (∀ g ∈ fams, g ≠ []) → ∀ g ∈ fams2, g ≠ [] := by
  intro fams
  induction fams with
  | nil => intro fams2 h; simp [placeFam] at h
  | cons g gs ih =>
    intro fams2 h hold g2 hg2
    unfold placeFam at h
    by_cases hc : g.any (fun j => hamming (shs.getD i 0) (shs.getD j 0) ≤ ht) = true
    · rw [if_pos hc] at h
      obtain rfl := Option.some_injective _ h.symm
      rcases List.mem_cons.mp hg2 with h1 | h1
      · subst h1; simp
      · exact hold g2 (List.mem_cons_of_mem _ h1)
    · rw [if_neg hc] at h
      rcases hrec : placeFam shs ht i gs with _ | fams3
      · rw [hrec] at h; simp at h
      · rw [hrec] at h
        simp only [Option.map_some'] at h
        obtain rfl := Option.some_injective _ h.symm
        rcases List.mem_cons.mp hg2 with h1 | h1
        · subst h1; exact hold g2 (List.mem_cons_self _ _)
        · exact ih fams3 hrec (fun g3 hg3 => hold g3 (List.mem_cons_of_mem _ hg3))
            g2 h1

/-- Every family built by formFamilies is non-empty. -/
theorem formFamilies_ne_nil (shs : List Nat) (ht : Nat) (cand : List Nat) :
    ∀ g ∈ formFamilies shs ht cand, g ≠ [] := by
  unfold formFamilies
  suffices h : ∀ (l : List Nat) (acc : List (List Nat)),
      (∀ g ∈ acc, g ≠ []) → ∀ g ∈ l.foldl (fun fams i =>
        match placeFam shs ht i fams with
        | some fams2 => fams2
        | none => fams ++ [[i]]) acc, g ≠ [] by
    exact h cand [] (by simp)
  intro l
  induction l with
  | nil => intro acc hacc; simpa using hacc
  | cons i rest ih =>
    intro acc hacc
    simp only [List.foldl_cons]
    apply ih
    rcases hp : placeFam shs ht i acc with _ | fams2
    · intro g hg
      rcases List.mem_append.mp hg with h1 | h1
      · exact hacc g h1
      · rcases List.mem_singleton.mp h1 with rfl
        simp
    · exact placeFam_ne_nil shs ht i acc fams2 hp hacc

/-- C5 counterexample: a single well-formed item with the numeric
timestamp -1 makes the representative score computation divide by
zero (Python ZeroDivisionError), so dedup_fingerprint raises rather
than returning: it is not a total function. -/
theorem C5_timestamp_minus_one_raises :
    ((-1 : ℚ) + 1 = 0) ∧
    dedupFingerprint (fun _ => 0) (fun _ => 0) id
      [{ text := "a", timestamp := some (-1) }] 64 8 3 = none := by
  constructor
  · norm_num
  · decide

/-- The bucket-and-family loop of dedup_fingerprint succeeds from any
state when no item carries timestamp -1. -/
theorem dedupFP_loop_isSome (tanhFn : ℚ → ℚ) (items : List Item)
    (hts : ∀ it ∈ items, ∀ t, it.timestamp = some t → t + 1 ≠ 0)
    (shs : List Nat) (ht : Nat)
    (buckets : List ((Nat × Nat) × List Nat)) (init : FpState) :
    (buckets.foldlM (fun st (bucket : (Nat × Nat) × List Nat) =>
      (formFamilies shs ht bucket.2).foldlM (fpFamilyStep tanhFn items) st)
      init).isSome = true := by
  apply foldlM_isSome
  intro st bucket _
  apply foldlM_isSome
  intro st2 grp hgrp
  unfold fpFamilyStep
  obtain ⟨rep, hrep⟩ := Option.isSome_iff_exists.mp
    (selectRep_isSome tanhFn items grp
      (formFamilies_ne_nil shs ht bucket.2 grp hgrp) hts)
  simp [hrep]

/-- C5 (amended): dedup_fingerprint returns normally on every
well-formed item list in which no item carries the numeric timestamp
-1; with a timestamp of -1 the recency term ts/(ts+1) divides by zero
and the call raises.  (The clause about non-finite float timestamps
concerns IEEE semantics and is outside this rational model; the code
in fact applies the recency formula to any int/float timestamp without
a finiteness guard.) -/
theorem C5_total_without_minus_one (hashFn : String → Nat) (tanhFn : ℚ → ℚ)
    (nfkc : String → String) (items : List Item) (bits bands hamThresh : Nat)
    (hts : ∀ it ∈ items, ∀ t, it.timestamp = some t → t + 1 ≠ 0) :
    (dedupFingerprint hashFn tanhFn nfkc items bits bands hamThresh).isSome
      = true := by
  unfold dedupFingerprint
  by_cases hnil : items = []
  · simp [hnil]
  · rw [if_neg hnil]
    refine bind_isSome_of _ _ ?_ (fun st => rfl)
    exact dedupFP_loop_isSome tanhFn items hts _ _ _ _

/-- Closed witness for C5_total_without_minus_one: a two-item list
with an ordinary timestamp and an absent one. -/
theorem C5_total_witness :
    (∀ it ∈ [{ text := "hello world", timestamp := some 5, url := some "u" },
             ({ text := "hello  world" } : Item)],
      ∀ t : ℚ, it.timestamp = some t → t + 1 ≠ 0) ∧
    (dedupFingerprint (fun s => s.length) (fun _ => 0) id
      [{ text := "hello world", timestamp := some 5, url := some "u" },
       { text := "hello  world" }] 16 4 3).isSome = true :=
  ⟨by decide, C5_total_without_minus_one (fun s => s.length) (fun _ => 0) id
    [{ text := "hello world", timestamp := some 5, url := some "u" },
     { text := "hello  world" }] 16 4 3 (by decide)⟩

/-! ### Fingerprint dedup coverage of identical texts (C7) -/

/-- The fingerprint list computed by dedup_fingerprint: simhash of the
canonicalized text of each item. -/
def fpSimhashes (hashFn : String → Nat) (nfkc : String → String)
    (items : List Item) (bits : Nat) : List Nat :=
  (items.map (fun x => canonicalize nfkc (some x.text))).map
    (fun t => simhash hashFn t bits)

/-- Hash for the C7 counterexample, standing for the md5-derived token
hash: token aaa maps to fingerprint bits 0-3, dd to bits 0-1, xx to 0. -/
def c7HashFn : String → Nat :=
  fun s => if s = "aaa" then 15 else if s = "dd" then 3 else 0

/-- Items for the C7 counterexample.  Indices 1 and 3 carry the
identical text xx; the later one is more recent. -/
def c7Items : List Item :=
  [{ text := "aaa" }, { text := "xx", timestamp := some 0 },
   { text := "dd" }, { text := "xx", timestamp := some 1 }]

/-- C7 counterexample: with bits 8, bands 2 and ham_thresh 2, the two
items with identical canonicalized text xx BOTH survive
dedup_fingerprint.  In the full-width band bucket, item aaa (distance 4
from xx) opens family one, item dd (distance 2 from both) chains into
it, and the second xx joins that family through dd while the first xx
sits alone in family two; each of the two xx items then becomes a
representative of some family, so both appear in the output. -/
theorem C7_identical_texts_both_survive :
    (c7Items.getD 1 default).text = (c7Items.getD 3 default).text ∧
    fpSimhashes c7HashFn id c7Items 8 =
      [15, 0, 3, 0] ∧
    (dedupFingerprint c7HashFn (fun _ => 0) id c7Items 8 2 2).map
      (fun out => out.countP (fun it => it.text = "xx")) = some 2 := by
  refine ⟨rfl, by decide, by decide⟩

/-- C7 (amended): two items with identical canonicalized texts always
receive the identical fingerprint (Hamming distance 0, within any
ham_thresh ≥ 0) and appear together in the bucket of every band; they
are however NOT guaranteed to land in the same family or to collapse
to one representative (see the counterexample). -/
theorem C7_identical_texts_share_buckets (hashFn : String → Nat)
    (nfkc : String → String) (items : List Item) (bits bands : Nat)
    (i j : Nat) (hi : i < items.length) (hj : j < items.length)
    (heq : canonicalize nfkc (some ((items.getD i default).text)) =
           canonicalize nfkc (some ((items.getD j default).text))) :
    hamming ((fpSimhashes hashFn nfkc items bits).getD i 0)
        ((fpSimhashes hashFn nfkc items bits).getD j 0) = 0 ∧
    (∀ b, b < bands → ∃ l,
      (bandBuckets (fpSimhashes hashFn nfkc items bits) bits bands).lookup
        (b, bandKey ((fpSimhashes hashFn nfkc items bits).getD i 0)
          (bandWidth bits bands) b) = some l ∧
      i ∈ l ∧ j ∈ l) := by
  set shs := fpSimhashes hashFn nfkc items bits with hshs
  have hlen : shs.length = items.length := by
    rw [hshs]; unfold fpSimhashes; simp
  have hget : ∀ k, k < items.length →
      shs.getD k 0 = simhash hashFn
        (canonicalize nfkc (some ((items.getD k default).text))) bits := by
    intro k hk
    rw [hshs]
    unfold fpSimhashes
    rw [List.getD_eq_getElem _ _ (by simpa using hk)]
    simp only [List.getElem_map]
    rw [List.getD_eq_getElem _ _ hk]
  have hsheq : shs.getD i 0 = shs.getD j 0 := by
    rw [hget i hi, hget j hj, heq]
  constructor
  · rw [hsheq]
    unfold hamming
    rw [Nat.xor_self]
    rfl
  · intro b hb
    rw [lookup_bandBuckets]
    have hispec : i ∈ bucketSpec shs bits bands b
        (bandKey (shs.getD i 0) (bandWidth bits bands) b) := by
      unfold bucketSpec
      rw [List.mem_filter, List.mem_range]
      exact ⟨by omega, Bool.and_eq_true_iff.mpr
        ⟨decide_eq_true hb, decide_eq_true rfl⟩⟩
    have hjspec : j ∈ bucketSpec shs bits bands b
        (bandKey (shs.getD i 0) (bandWidth bits bands) b) := by
      unfold bucketSpec
      rw [List.mem_filter, List.mem_range]
      exact ⟨by omega, Bool.and_eq_true_iff.mpr
        ⟨decide_eq_true hb, decide_eq_true (by rw [hsheq])⟩⟩
    have hne : bucketSpec shs bits bands b
        (bandKey (shs.getD i 0) (bandWidth bits bands) b) ≠ [] := by
      intro hh
      rw [hh] at hispec
      exact List.not_mem_nil i hispec
    rw [if_neg hne]
    exact ⟨_, rfl, hispec, hjspec⟩

/-- Closed witness for C7_identical_texts_share_buckets on two
identical-text items. -/
theorem C7_share_buckets_witness :
    (0 < 2 ∧ 1 < 2 ∧
      canonicalize id (some ((List.getD [({ text := "x" } : Item),
          { text := "x" }] 0 default).text)) =
        canonicalize id (some ((List.getD [({ text := "x" } : Item),
          { text := "x" }] 1 default).text))) ∧
    (hamming ((fpSimhashes (fun _ => 5) id
        [{ text := "x" }, { text := "x" }] 4).getD 0 0)
      ((fpSimhashes (fun _ => 5) id
        [{ text := "x" }, { text := "x" }] 4).getD 1 0) = 0 ∧
    (∀ b, b < 2 → ∃ l,
      (bandBuckets (fpSimhashes (fun _ => 5) id
          [{ text := "x" }, { text := "x" }] 4) 4 2).lookup
        (b, bandKey ((fpSimhashes (fun _ => 5) id
            [{ text := "x" }, { text := "x" }] 4).getD 0 0)
          (bandWidth 4 2) b) = some l ∧
      0 ∈ l ∧ 1 ∈ l)) :=
  ⟨⟨by decide, by decide, rfl⟩,
    C7_identical_texts_share_buckets (fun _ => 5) id
      [{ text := "x" }, { text := "x" }] 4 2 0 1 (by decide) (by decide) rfl⟩

/-! ### Canonicalizer idempotence (C6)

The fixpoint argument: the output of the post-processing (strip,
whitespace collapse, quote straightening) has no leading or trailing
whitespace, no adjacent whitespace, every whitespace character is the
ASCII space, and no curly quote; each of the three passes is the
identity on such strings. -/

/-- Boolean well-collapsed test: every whitespace character is an
ASCII space not followed by whitespace. -/
def collapsedB : List Char → Bool
  | [] => true
  | [c] => !isPySpace c || (c == ' ')
  | c :: r :: rest =>
    (!isPySpace c || ((c == ' ') && !isPySpace r)) && collapsedB (r :: rest)

/-- Head is not whitespace (vacuous for the empty list). -/
def headOk (l : List Char) : Prop :=
  ∀ c, l.head? = some c → isPySpace c = false

/-- Last character is not whitespace (vacuous for the empty list). -/
def lastOk (l : List Char) : Prop :=
  ∀ c, l.getLast? = some c → isPySpace c = false

theorem collapsedB_tail (c : Char) (rest : List Char)
    (h : collapsedB (c :: rest) = true) : collapsedB rest = true := by
  cases rest with
  | nil => rfl
  | cons r rest2 =>
    unfold collapsedB at h
    exact (Bool.and_eq_true_iff.mp h).2

theorem collapsedB_cons_nonspace (c : Char) (l : List Char)
    (hc : isPySpace c = false) (hl : collapsedB l = true) :
    collapsedB (c :: l) = true := by
  cases l with
  | nil => simp [collapsedB, hc]
  | cons r rest => simp [collapsedB, hc, hl]

theorem collapseWS_cons_nonspace (c : Char) (l : List Char)
    (hc : isPySpace c = false) : collapseWS (c :: l) = c :: collapseWS l := by
  cases l with
  | nil => simp [collapseWS, hc]
  | cons r rest => simp [collapseWS, hc]

theorem collapseWS_ne_nil : ∀ (l : List Char), l ≠ [] → collapseWS l ≠ [] := by
  intro l
  induction l with
  | nil => intro h; exact absurd rfl h
  | cons c rest ih =>
    intro _
    cases rest with
    | nil =>
      by_cases hc : isPySpace c = true <;> simp [collapseWS, hc]
    | cons r rest2 =>
      by_cases hc : isPySpace c = true
      · by_cases hr : isPySpace r = true
        · simpa [collapseWS, hc, hr] using ih (by simp)
        · simp [collapseWS, hc, hr]
      · simp [collapseWS, hc]

/-- The collapse pass produces a well-collapsed string. -/
theorem collapsedB_collapseWS : ∀ (l : List Char),
    collapsedB (collapseWS l) = true := by
  intro l
  induction l with
  | nil => rfl
  | cons c rest ih =>
    cases rest with
    | nil =>
      by_cases hc : isPySpace c = true <;> simp [collapseWS, collapsedB, hc]
    | cons r rest2 =>
      by_cases hc : isPySpace c = true
      · by_cases hr : isPySpace r = true
        · simpa [collapseWS, hc, hr] using ih
        · rw [show collapseWS (c :: r :: rest2) = ' ' :: collapseWS (r :: rest2)
            by simp [collapseWS, hc, hr]]
          rw [collapseWS_cons_nonspace r rest2 (by simpa using hr)] at ih ⊢
          simpa [collapsedB, hr] using ih
      · rw [collapseWS_cons_nonspace c _ (by simpa using hc)]
        exact collapsedB_cons_nonspace c _ (by simpa using hc) ih

/-- A well-collapsed string is a fixpoint of the collapse pass. -/
theorem collapseWS_of_collapsedB : ∀ (l : List Char),
    collapsedB l = true → collapseWS l = l := by
  intro l
  induction l with
  | nil => intro _; rfl
  | cons c rest ih =>
    intro h
    cases rest with
    | nil =>
      simp only [collapsedB] at h
      by_cases hc : isPySpace c = true
      · have hcsp : c = ' ' := by
          rcases Bool.or_eq_true_iff.mp h with h1 | h1
          · rw [hc] at h1; simp at h1
          · exact beq_iff_eq.mp h1
        subst hcsp
        decide
      · simp [collapseWS, hc]
    | cons r rest2 =>
      simp only [collapsedB] at h
      obtain ⟨h1, h2⟩ := Bool.and_eq_true_iff.mp h
      by_cases hc : isPySpace c = true
      · have hcr : c = ' ' ∧ isPySpace r = false := by
          rcases Bool.or_eq_true_iff.mp h1 with ha | ha
          · rw [hc] at ha; simp at ha
          · obtain ⟨hb, hb2⟩ := Bool.and_eq_true_iff.mp ha
            exact ⟨beq_iff_eq.mp hb, by simpa using hb2⟩
        rw [show collapseWS (c :: r :: rest2) = ' ' :: collapseWS (r :: rest2)
          by simp [collapseWS, hc, hcr.2], ih h2, hcr.1]
      · rw [collapseWS_cons_nonspace c _ (by simpa using hc), ih h2]

theorem isPySpace_mapDQuote (c : Char) : isPySpace (mapDQuote c) = isPySpace c := by
  unfold mapDQuote
  by_cases h : c = '“' ∨ c = '”'
  · rw [if_pos h]
    rcases h with h | h <;> subst h <;> decide
  · rw [if_neg h]

theorem isPySpace_mapSQuote (c : Char) : isPySpace (mapSQuote c) = isPySpace c := by
  unfold mapSQuote
  by_cases h : c = '‘' ∨ c = '’'
  · rw [if_pos h]
    rcases h with h | h <;> subst h <;> decide
  · rw [if_neg h]

theorem mapDQuote_space (c : Char) (h : isPySpace c = true) : mapDQuote c = c := by
  unfold mapDQuote
  rw [if_neg ?_]
  intro hor
  rcases hor with h1 | h1 <;> subst h1 <;> exact absurd h (by decide)

theorem mapSQuote_space (c : Char) (h : isPySpace c = true) : mapSQuote c = c := by
  unfold mapSQuote
  rw [if_neg ?_]
  intro hor
  rcases hor with h1 | h1 <;> subst h1 <;> exact absurd h (by decide)

/-- The double pass of the two quote substitutions is one pass. -/
theorem quote_idem (c : Char) :
    mapSQuote (mapDQuote (mapSQuote (mapDQuote c))) = mapSQuote (mapDQuote c) := by
  by_cases hd : c = '“' ∨ c = '”'
  · rcases hd with h | h <;> subst h <;> decide
  · by_cases hs : c = '‘' ∨ c = '’'
    · rcases hs with h | h <;> subst h <;> decide
    · have hdc : mapDQuote c = c := by unfold mapDQuote; rw [if_neg hd]
      have hsc : mapSQuote c = c := by unfold mapSQuote; rw [if_neg hs]
      rw [hdc, hsc, hdc, hsc]

/-- A space-class-preserving, space-fixing character map preserves the
well-collapsed property. -/
theorem collapsedB_map (f : Char → Char)
    (hsp : ∀ c, isPySpace (f c) = isPySpace c)
    (hid : ∀ c, isPySpace c = true → f c = c) :
    ∀ l, collapsedB l = true → collapsedB (l.map f) = true := by
  intro l
  induction l with
  | nil => intro _; rfl
  | cons c rest ih =>
    intro h
    cases rest with
    | nil =>
      simp only [List.map_cons, List.map_nil]
      simp only [collapsedB] at h ⊢
      by_cases hc : isPySpace c = true
      · rw [hid c hc]
        exact h
      · simp [hsp, hc]
    | cons r rest2 =>
      simp only [List.map_cons]
      simp only [collapsedB] at h
      obtain ⟨h1, h2⟩ := Bool.and_eq_true_iff.mp h
      have hr2 := ih h2
      simp only [collapsedB]
      refine Bool.and_eq_true_iff.mpr ⟨?_, ?_⟩
      · by_cases hc : isPySpace c = true
        · rw [hid c hc]
          rcases Bool.or_eq_true_iff.mp h1 with ha | ha
          · rw [hc] at ha; simp at ha
          · obtain ⟨hb, hb2⟩ := Bool.and_eq_true_iff.mp ha
            refine Bool.or_eq_true_iff.mpr (Or.inr
              (Bool.and_eq_true_iff.mpr ⟨hb, ?_⟩))
            rw [hsp r]
            exact hb2
        · refine Bool.or_eq_true_iff.mpr (Or.inl ?_)
          simp [hsp, hc]
      · simpa using hr2

theorem head_dropWhile (p : Char → Bool) : ∀ (l : List Char) (c : Char),
    (l.dropWhile p).head? = some c → p c = false := by
  intro l
  induction l with
  | nil => intro c h; simp at h
  | cons a rest ih =>
    intro c h
    by_cases ha : p a = true
    · rw [List.dropWhile_cons_of_pos ha] at h
      exact ih c h
    · rw [List.dropWhile_cons_of_neg ha] at h
      simp only [List.head?_cons, Option.some.injEq] at h
      subst h
      simpa using ha

theorem getLast_dropWhile_ne_nil (p : Char → Bool) : ∀ (l : List Char),
    l.dropWhile p ≠ [] → (l.dropWhile p).getLast? = l.getLast? := by
  intro l
  induction l with
  | nil => intro h; simp at h
  | cons a rest ih =>
    intro h
    by_cases ha : p a = true
    · rw [List.dropWhile_cons_of_pos ha] at h ⊢
      rw [ih h]
      have hr : rest ≠ [] := by
        intro hr
        rw [hr] at h
        simp at h
      cases rest with
      | nil => exact absurd rfl hr
      | cons b r2 => rw [List.getLast?_cons_cons]
    · rw [List.dropWhile_cons_of_neg ha]

theorem pyStripL_headOk (l : List Char) : headOk (pyStripL l) := by
  intro c hc
  unfold pyStripL at hc
  rw [List.head?_reverse] at hc
  have hne : ((l.dropWhile isPySpace).reverse.dropWhile isPySpace) ≠ [] := by
    intro hnil
    rw [hnil] at hc
    simp at hc
  rw [getLast_dropWhile_ne_nil _ _ hne, List.getLast?_reverse] at hc
  exact head_dropWhile isPySpace l c hc

theorem pyStripL_lastOk (l : List Char) : lastOk (pyStripL l) := by
  intro c hc
  unfold pyStripL at hc
  rw [List.getLast?_reverse] at hc
  exact head_dropWhile isPySpace _ c hc

theorem collapseWS_headOk (l : List Char) (h : headOk l) :
    headOk (collapseWS l) := by
  cases l with
  | nil => intro c hc; simp [collapseWS] at hc
  | cons a rest =>
    have ha : isPySpace a = false := h a rfl
    rw [collapseWS_cons_nonspace a rest ha]
    intro c hc
    simp only [List.head?_cons, Option.some.injEq] at hc
    subst hc
    exact ha

theorem collapseWS_lastOk : ∀ (l : List Char), lastOk l →
    lastOk (collapseWS l) := by
  intro l
  induction l with
  | nil => intro _ c hc; simp [collapseWS] at hc
  | cons a rest ih =>
    intro h
    cases rest with
    | nil =>
      have ha : isPySpace a = false := h a rfl
      rw [show collapseWS [a] = [a] from by simp [collapseWS, ha]]
      exact h
    | cons r rest2 =>
      have htail : lastOk (r :: rest2) := by
        intro c hc
        exact h c (by rw [List.getLast?_cons_cons]; exact hc)
      have ihr := ih htail
      have hX : collapseWS (r :: rest2) ≠ [] := collapseWS_ne_nil _ (by simp)
      by_cases hasp : isPySpace a = true
      · by_cases hr : isPySpace r = true
        · rw [show collapseWS (a :: r :: rest2) = collapseWS (r :: rest2) from
            by simp [collapseWS, hasp, hr]]
          exact ihr
        · rw [show collapseWS (a :: r :: rest2) = ' ' :: collapseWS (r :: rest2)
            from by simp [collapseWS, hasp, hr]]
          intro c hc
          cases hcw : collapseWS (r :: rest2) with
          | nil => exact absurd hcw hX
          | cons b bs =>
            rw [hcw, List.getLast?_cons_cons] at hc
            exact ihr c (by rw [hcw]; exact hc)
      · rw [collapseWS_cons_nonspace a _ (by simpa using hasp)]
        intro c hc
        cases hcw : collapseWS (r :: rest2) with
        | nil => exact absurd hcw hX
        | cons b bs =>
          rw [hcw, List.getLast?_cons_cons] at hc
          exact ihr c (by rw [hcw]; exact hc)

theorem headOk_map (f : Char → Char)
    (hsp : ∀ c, isPySpace (f c) = isPySpace c) (l : List Char)
    (h : headOk l) : headOk (l.map f) := by
  intro c hc
  rw [List.head?_map] at hc
  obtain ⟨a, ha, rfl⟩ := Option.map_eq_some'.mp hc
  rw [hsp a]
  exact h a ha

theorem lastOk_map (f : Char → Char)
    (hsp : ∀ c, isPySpace (f c) = isPySpace c) (l : List Char)
    (h : lastOk l) : lastOk (l.map f) := by
  intro c hc
  rw [List.getLast?_map] at hc
  obtain ⟨a, ha, rfl⟩ := Option.map_eq_some'.mp hc
  rw [hsp a]
  exact h a ha

/-- A string without leading and trailing whitespace is a fixpoint of
the strip pass. -/
theorem pyStripL_fix (l : List Char) (h1 : headOk l) (h2 : lastOk l) :
    pyStripL l = l := by
  unfold pyStripL
  have hd : l.dropWhile isPySpace = l := by
    cases l with
    | nil => rfl
    | cons a rest =>
      rw [List.dropWhile_cons_of_neg (by simp [h1 a rfl])]
  rw [hd]
  have hd2 : l.reverse.dropWhile isPySpace = l.reverse := by
    cases hrev : l.reverse with
    | nil => rfl
    | cons a rest =>
      have hla : l.getLast? = some a := by
        rw [← List.head?_reverse, hrev]
        rfl
      rw [List.dropWhile_cons_of_neg (by simp [h2 a hla])]
  rw [hd2, List.reverse_reverse]

/-- The canonicalization post-processing is idempotent. -/
theorem canonPost_idem (l : List Char) : canonPost (canonPost l) = canonPost l := by
  have hcoll : collapsedB (canonPost l) = true := by
    unfold canonPost
    apply collapsedB_map mapSQuote isPySpace_mapSQuote mapSQuote_space
    apply collapsedB_map mapDQuote isPySpace_mapDQuote mapDQuote_space
    exact collapsedB_collapseWS _
  have hh : headOk (canonPost l) := by
    unfold canonPost
    apply headOk_map _ isPySpace_mapSQuote
    apply headOk_map _ isPySpace_mapDQuote
    exact collapseWS_headOk _ (pyStripL_headOk l)
  have hl : lastOk (canonPost l) := by
    unfold canonPost
    apply lastOk_map _ isPySpace_mapSQuote
    apply lastOk_map _ isPySpace_mapDQuote
    exact collapseWS_lastOk _ (pyStripL_lastOk l)
  have hmaps : ∀ (m : List Char),
      ((((m.map mapDQuote).map mapSQuote).map mapDQuote).map mapSQuote) =
        (m.map mapDQuote).map mapSQuote := by
    intro m
    induction m with
    | nil => rfl
    | cons a m2 ihm =>
      simp only [List.map_cons]
      rw [quote_idem a, ihm]
  show ((collapseWS (pyStripL (canonPost l))).map mapDQuote).map mapSQuote =
    canonPost l
  rw [pyStripL_fix _ hh hl, collapseWS_of_collapsedB _ hcoll]
  show ((((collapseWS (pyStripL l)).map mapDQuote).map mapSQuote).map
    mapDQuote).map mapSQuote = canonPost l
  rw [hmaps]
  rfl

/-- C6: the canonicalizer is idempotent and total: for every text x,
canonicalize(canonicalize(x)) = canonicalize(x), and empty or None
input yields the empty string.  The external unicodedata NFKC call is
the parameter nfkc, assumed (as the Unicode standard guarantees) to
fix already-canonicalized strings and the empty string; totality is
inherent in the model (every branch returns). -/
theorem C6_canonicalize_idempotent (nfkc : String → String)
    (hstable : ∀ s, nfkc ((canonPost (nfkc s).data).asString) =
      (canonPost (nfkc s).data).asString)
    (hempty : nfkc "" = "") :
    (∀ x : String,
      canonicalize nfkc (some (canonicalize nfkc (some x))) =
        canonicalize nfkc (some x)) ∧
    canonicalize nfkc none = "" ∧ canonicalize nfkc (some "") = "" := by
  refine ⟨?_, ?_, ?_⟩
  · intro x
    show (canonPost (nfkc ((canonPost (nfkc x).data).asString)).data).asString =
      (canonPost (nfkc x).data).asString
    rw [hstable x]
    show (canonPost (canonPost (nfkc x).data)).asString = _
    rw [canonPost_idem]
  · show (canonPost (nfkc "").data).asString = ""
    rw [hempty]
    decide
  · show (canonPost (nfkc "").data).asString = ""
    rw [hempty]
    decide

/-- Closed witness for C6_canonicalize_idempotent with the identity
normalization and a concrete messy input. -/
theorem C6_canonicalize_witness :
    canonicalize id (some (canonicalize id (some " a “b”  c "))) =
      canonicalize id (some " a “b”  c ") ∧
    canonicalize id none = "" ∧ canonicalize id (some "") = "" :=
  ⟨(C6_canonicalize_idempotent id (fun _ => rfl) rfl).1 " a “b”  c ",
   (C6_canonicalize_idempotent id (fun _ => rfl) rfl).2.1,
   (C6_canonicalize_idempotent id (fun _ => rfl) rfl).2.2⟩

/-! ### Semantic dedup merged URL characterization (C10) -/

theorem getD_set_ne {α : Type} (l : List α) (j m : Nat) (a d : α)
    (h : m ≠ j) : (l.set j a).getD m d = l.getD m d := by
  simp only [List.getD, List.get?_eq_getElem?]
  rw [List.getElem?_set_ne (fun hh => h hh.symm)]

theorem getD_set_self {α : Type} (l : List α) (j : Nat) (a d : α)
    (h : j < l.length) : (l.set j a).getD j d = a := by
  simp only [List.getD, List.get?_eq_getElem?]
  rw [List.getElem?_set_self (by simpa using h)]
  rfl

theorem listModify_length (f : Item → Item) :
    ∀ (n : Nat) (l : List Item), (listModify f n l).length = l.length := by
  intro n
  induction n with
  | zero => intro l; cases l <;> simp [listModify]
  | succ n ih =>
    intro l
    cases l with
    | nil => rfl
    | cons x xs => simp [listModify, ih xs]

theorem listModify_getD_ne (f : Item → Item) :
    ∀ (n : Nat) (l : List Item) (k : Nat), k ≠ n →
      (listModify f n l).getD k default = l.getD k default := by
  intro n
  induction n with
  | zero =>
    intro l k hk
    cases l with
    | nil => rfl
    | cons x xs =>
      obtain ⟨k2, rfl⟩ : ∃ k2, k = k2 + 1 := ⟨k - 1, by omega⟩
      simp [listModify, List.getD_cons_succ]
  | succ n ih =>
    intro l k hk
    cases l with
    | nil => rfl
    | cons x xs =>
      cases k with
      | zero => simp [listModify, List.getD_cons_zero]
      | succ k2 =>
        simp only [listModify, List.getD_cons_succ]
        exact ih xs k2 (by omega)

theorem listModify_getD_self (f : Item → Item) :
    ∀ (n : Nat) (l : List Item), n < l.length →
      (listModify f n l).getD n default = f (l.getD n default) := by
  intro n
  induction n with
  | zero =>
    intro l hl
    cases l with
    | nil => simp at hl
    | cons x xs => simp [listModify, List.getD_cons_zero]
  | succ n ih =>
    intro l hl
    cases l with
    | nil => simp at hl
    | cons x xs =>
      simp only [listModify, List.getD_cons_succ]
      exact ih xs (by simpa using hl)

theorem getD_true_lt (l : List Bool) (m : Nat) (h : l.getD m false = true) :
    m < l.length := by
  by_contra hm
  rw [List.getD_eq_default _ _ (by omega)] at h
  simp at h

/-- Behaviour of one anchor pass of the semantic dedup kernel:
untouched indices keep their state, removals are monotone, and a fresh
removal records the anchor as representative. -/
theorem semInner_spec (sims : Nat → Nat → ℚ) (t : ℚ) (i : Nat) :
    ∀ (js : List Nat) (st : List Bool × List Nat),
      st.1.length = st.2.length →
      (∀ m, m ∉ js →
        (semInner sims t i st js).1.getD m false = st.1.getD m false ∧
        (semInner sims t i st js).2.getD m 0 = st.2.getD m 0) ∧
      (∀ m, st.1.getD m false = false →
        (semInner sims t i st js).1.getD m false = false ∧
        (semInner sims t i st js).2.getD m 0 = st.2.getD m 0) ∧
      (∀ m, (semInner sims t i st js).1.getD m false = false →
        st.1.getD m false = false ∨
        (m ∈ js ∧ (semInner sims t i st js).2.getD m 0 = i)) := by
  intro js
  induction js with
  | nil =>
    intro st _
    refine ⟨fun m _ => ⟨rfl, rfl⟩, fun m h => ⟨h, rfl⟩, fun m h => Or.inl h⟩
  | cons j js ih =>
    intro st hstlen
    simp only [semInner, List.foldl_cons]
    set st2 := if st.1.getD j false = true ∧ sims i j ≥ t then
      (st.1.set j false, st.2.set j i) else st with hst2
    have hst2len : st2.1.length = st2.2.length := by
      rw [hst2]
      by_cases hcond : st.1.getD j false = true ∧ sims i j ≥ t
      · rw [if_pos hcond]
        simp [hstlen]
      · rw [if_neg hcond]
        exact hstlen
    have hih := ih st2 hst2len
    have hne : ∀ m, m ≠ j → st2.1.getD m false = st.1.getD m false ∧
        st2.2.getD m 0 = st.2.getD m 0 := by
      intro m hm
      rw [hst2]
      by_cases hcond : st.1.getD j false = true ∧ sims i j ≥ t
      · rw [if_pos hcond]
        exact ⟨getD_set_ne _ _ _ _ _ hm, getD_set_ne _ _ _ _ _ hm⟩
      · rw [if_neg hcond]
        exact ⟨rfl, rfl⟩
    have hmono : ∀ m, st.1.getD m false = false →
        st2.1.getD m false = false ∧ st2.2.getD m 0 = st.2.getD m 0 := by
      intro m hm
      by_cases hmj : m = j
      · subst hmj
        rw [hst2]
        by_cases hcond : st.1.getD m false = true ∧ sims i m ≥ t
        · rw [hcond.1] at hm
          simp at hm
        · rw [if_neg hcond]
          exact ⟨hm, rfl⟩
      · obtain ⟨h1, h2⟩ := hne m hmj
        exact ⟨h1 ▸ hm, h2⟩
    refine ⟨?_, ?_, ?_⟩
    · intro m hm
      have hmj : m ≠ j := fun hh => hm (hh ▸ List.mem_cons_self j js)
      have hmjs : m ∉ js := fun hh => hm (List.mem_cons_of_mem j hh)
      obtain ⟨h1, h2⟩ := (hih.1) m hmjs
      obtain ⟨h3, h4⟩ := hne m hmj
      exact ⟨h1.trans h3, h2.trans h4⟩
    · intro m hm
      obtain ⟨h1, h2⟩ := hmono m hm
      obtain ⟨h3, h4⟩ := (hih.2.1) m h1
      exact ⟨h3, h4.trans h2⟩
    · intro m hm
      rcases (hih.2.2) m hm with h1 | h1
      · by_cases hmj : m = j
        · subst hmj
          by_cases hcond : st.1.getD m false = true ∧ sims i m ≥ t
          · refine Or.inr ⟨List.mem_cons_self m js, ?_⟩
            have hmlt : m < st.2.length := hstlen ▸ getD_true_lt _ _ hcond.1
            have hrep2 : st2.2.getD m 0 = i := by
              rw [hst2, if_pos hcond]
              exact getD_set_self _ _ _ _ hmlt
            have hkeep2 : st2.1.getD m false = false := by
              rw [hst2, if_pos hcond]
              exact getD_set_self _ _ _ _ (getD_true_lt _ _ hcond.1)
            obtain ⟨_, h4⟩ := (hih.2.1) m hkeep2
            exact h4.trans hrep2
          · rw [hst2, if_neg hcond] at h1
            exact Or.inl h1
        · obtain ⟨h3, _⟩ := hne m hmj
          exact Or.inl (h3 ▸ h1)
      · exact Or.inr ⟨List.mem_cons_of_mem j h1.1, h1.2⟩

theorem semInner_lengths (sims : Nat → Nat → ℚ) (t : ℚ) (i : Nat) :
    ∀ (js : List Nat) (st : List Bool × List Nat),
      (semInner sims t i st js).1.length = st.1.length ∧
      (semInner sims t i st js).2.length = st.2.length := by
  intro js
  induction js with
  | nil => intro st; exact ⟨rfl, rfl⟩
  | cons j js ih =>
    intro st
    simp only [semInner, List.foldl_cons]
    set st2 := if st.1.getD j false = true ∧ sims i j ≥ t then
      (st.1.set j false, st.2.set j i) else st with hst2
    have hl : st2.1.length = st.1.length ∧ st2.2.length = st.2.length := by
      rw [hst2]
      by_cases hcond : st.1.getD j false = true ∧ sims i j ≥ t
      · rw [if_pos hcond]; simp
      · rw [if_neg hcond]; exact ⟨rfl, rfl⟩
    have := ih st2
    exact ⟨this.1.trans hl.1, this.2.trans hl.2⟩

theorem mem_drop_range_le (n k : Nat) : ∀ j ∈ (List.range n).drop k, k ≤ j := by
  intro j hj
  obtain ⟨p, hp, hget⟩ := List.mem_iff_getElem.mp hj
  rw [List.getElem_drop] at hget
  rw [List.getElem_range] at hget
  omega

/-- The anchor fold of the kernel: whenever an index ends up removed,
its recorded representative is a smaller index that is still kept. -/
theorem semKernel_go_inv (sims : Nat → Nat → ℚ) (t : ℚ) (n : Nat) :
    ∀ (as : List Nat) (b : Nat) (st : List Bool × List Nat),
      as.Pairwise (· < ·) → (∀ a ∈ as, b ≤ a) →
      st.1.length = n → st.2.length = n →
      (∀ m, m < n → st.1.getD m false = false →
        st.2.getD m 0 < m ∧ st.2.getD m 0 < b ∧
        st.1.getD (st.2.getD m 0) false = true) →
      ∀ m, m < n →
        (as.foldl (fun st3 i =>
          if st3.1.getD i false = true then
            semInner sims t i st3 ((List.range n).drop (i + 1))
          else st3) st).1.getD m false = false →
        (as.foldl (fun st3 i =>
          if st3.1.getD i false = true then
            semInner sims t i st3 ((List.range n).drop (i + 1))
          else st3) st).2.getD m 0 < m ∧
        (as.foldl (fun st3 i =>
          if st3.1.getD i false = true then
            semInner sims t i st3 ((List.range n).drop (i + 1))
          else st3) st).1.getD ((as.foldl (fun st3 i =>
          if st3.1.getD i false = true then
            semInner sims t i st3 ((List.range n).drop (i + 1))
          else st3) st).2.getD m 0) false = true := by
  intro as
  induction as with
  | nil =>
    intro b st _ _ _ _ hinv m hm hkeep
    obtain ⟨h1, _, h3⟩ := hinv m hm hkeep
    exact ⟨h1, h3⟩
  | cons a as ih =>
    intro b st hpw hble hlen1 hlen2 hinv
    simp only [List.foldl_cons]
    have hba : b ≤ a := hble a (List.mem_cons_self a as)
    have has : ∀ r ∈ as, a + 1 ≤ r := by
      intro r hr
      exact (List.pairwise_cons.mp hpw).1 r hr
    have hpw2 : as.Pairwise (· < ·) := (List.pairwise_cons.mp hpw).2
    by_cases hcond : st.1.getD a false = true
    · rw [if_pos hcond]
      set js := (List.range n).drop (a + 1) with hjs
      have hjge : ∀ j ∈ js, a + 1 ≤ j := by
        intro j hj
        exact mem_drop_range_le n (a + 1) j hj
      have hspec := semInner_spec sims t a js st (hlen1.trans hlen2.symm)
      have hl := semInner_lengths sims t a js st
      apply ih (a + 1) _ hpw2 has (hl.1.trans hlen1) (hl.2.trans hlen2)
      intro m hm hkeep
      rcases hspec.2.2 m hkeep with hold | hnew
      · obtain ⟨h1, h2, h3⟩ := hinv m hm hold
        obtain ⟨hk, hr⟩ := hspec.2.1 m hold
        rw [hr]
        have hrepnot : st.2.getD m 0 ∉ js := by
          intro hmem
          have := hjge _ hmem
          omega
        obtain ⟨hk2, _⟩ := hspec.1 _ hrepnot
        exact ⟨h1, by omega, hk2.trans h3⟩
      · obtain ⟨hmem, hrep⟩ := hnew
        have hma := hjge m hmem
        rw [hrep]
        have hanot : a ∉ js := by
          intro hmem2
          have := hjge a hmem2
          omega
        obtain ⟨hk2, _⟩ := hspec.1 a hanot
        exact ⟨by omega, by omega, hk2.trans hcond⟩
    · rw [if_neg hcond]
      apply ih (a + 1) _ hpw2 has hlen1 hlen2
      intro m hm hkeep
      obtain ⟨h1, h2, h3⟩ := hinv m hm hkeep
      exact ⟨h1, by omega, h3⟩

theorem semKernel_lengths (sims : Nat → Nat → ℚ) (n : Nat) (t : ℚ) :
    (semKernel sims n t).1.length = n ∧ (semKernel sims n t).2.length = n := by
  unfold semKernel
  suffices h : ∀ (as : List Nat) (st : List Bool × List Nat),
      ((as.foldl (fun st3 i =>
        if st3.1.getD i false = true then
          semInner sims t i st3 ((List.range n).drop (i + 1))
        else st3) st).1.length = st.1.length ∧
       (as.foldl (fun st3 i =>
        if st3.1.getD i false = true then
          semInner sims t i st3 ((List.range n).drop (i + 1))
        else st3) st).2.length = st.2.length) by
    obtain ⟨h1, h2⟩ := h (List.range n) (List.replicate n true, List.range n)
    rw [h1, h2]
    simp
  intro as
  induction as with
  | nil => intro st; exact ⟨rfl, rfl⟩
  | cons a as ih =>
    intro st
    simp only [List.foldl_cons]
    by_cases hcond : st.1.getD a false = true
    · rw [if_pos hcond]
      have hl := semInner_lengths sims t a ((List.range n).drop (a + 1)) st
      have := ih (semInner sims t a st ((List.range n).drop (a + 1)))
      exact ⟨this.1.trans hl.1, this.2.trans hl.2⟩
    · rw [if_neg hcond]
      exact ih st

/-- Kernel invariant: the representative of a removed index is a
smaller, still-kept index. -/
theorem semKernel_inv (sims : Nat → Nat → ℚ) (n : Nat) (t : ℚ) :
    ∀ m, m < n → (semKernel sims n t).1.getD m false = false →
      (semKernel sims n t).2.getD m 0 < m ∧
      (semKernel sims n t).1.getD ((semKernel sims n t).2.getD m 0) false
        = true := by
  intro m hm hkeep
  unfold semKernel at hkeep ⊢
  refine semKernel_go_inv sims t n (List.range n) 0
    (List.replicate n true, List.range n) (List.pairwise_lt_range n)
    (fun a _ => Nat.zero_le a) (by simp) (by simp) ?_ m hm hkeep
  intro m2 hm2 hkeep2
  rw [List.getD_eq_getElem _ _ (by simpa using hm2)] at hkeep2
  simp at hkeep2

theorem range_split (i n : Nat) (h : i ≤ n) :
    List.range n = List.range i ++ List.range' i (n - i) := by
  rw [List.range_eq_range' n, List.range_eq_range' i]
  have hap := List.range'_append 0 i (n - i) 1
  simp only [one_mul, zero_add] at hap
  calc List.range' 0 n 1 = List.range' 0 ((n - i) + i) 1 := by congr 1; omega
  _ = List.range' 0 i 1 ++ List.range' i (n - i) 1 := hap.symm

/-- The kept index at position idx_map(i) of the filtered range is i
itself. -/
theorem idxMap_getD (keep : List Bool) (n i : Nat) (hi : i < n)
    (hk : keep.getD i false = true) :
    ((List.range n).filter (fun k => keep.getD k false)).getD
      (semIdxMap keep i) 0 = i := by
  rw [range_split (i + 1) n (by omega), List.filter_append, List.range_succ,
    List.filter_append]
  have hk2 : keep[i]?.getD false = true := by
    rw [← List.get?_eq_getElem?]
    exact hk
  rw [show List.filter (fun k => keep.getD k false) [i] = [i] from by
    simp [hk2]]
  rw [List.append_assoc]
  have hpos : semIdxMap keep i =
      (List.filter (fun k => keep.getD k false) (List.range i)).length := rfl
  rw [List.getD_eq_getElem _ _ (by
    rw [List.length_append]
    simp only [List.length_cons, List.singleton_append]
    omega)]
  rw [List.getElem_append_right (by omega)]
  simp [hpos]

theorem idxMap_lt_len (keep : List Bool) (n i : Nat) (hi : i < n)
    (hk : keep.getD i false = true) :
    semIdxMap keep i <
      ((List.range n).filter (fun k => keep.getD k false)).length := by
  rw [range_split (i + 1) n (by omega), List.filter_append, List.range_succ,
    List.filter_append]
  have hk2 : keep[i]?.getD false = true := by
    rw [← List.get?_eq_getElem?]
    exact hk
  rw [show List.filter (fun k => keep.getD k false) [i] = [i] from by
    simp [hk2]]
  rw [List.length_append, List.length_append]
  have hpos : semIdxMap keep i =
      (List.filter (fun k => keep.getD k false) (List.range i)).length := rfl
  simp [hpos]
  omega

theorem idxMap_strict_mono (keep : List Bool) (a b2 : Nat) (hab : a < b2)
    (hk : keep.getD a false = true) :
    semIdxMap keep a < semIdxMap keep b2 := by
  show semIdxMap keep a <
    ((List.range b2).filter (fun k => keep.getD k false)).length
  exact idxMap_lt_len keep b2 a hab hk

theorem idxMap_inj (keep : List Bool) (a b2 : Nat)
    (ha : keep.getD a false = true) (hb : keep.getD b2 false = true)
    (h : semIdxMap keep a = semIdxMap keep b2) : a = b2 := by
  rcases Nat.lt_trichotomy a b2 with h1 | h1 | h1
  · have := idxMap_strict_mono keep a b2 h1 ha
    omega
  · exact h1
  · have := idxMap_strict_mono keep b2 a h1 hb
    omega

theorem getD_map_item (f : Nat → Item) (l : List Nat) (k : Nat)
    (h : k < l.length) :
    (l.map f).getD k default = f (l.getD k 0) := by
  rw [List.getD_eq_getElem _ _ (by simpa using h), List.getElem_map,
    List.getD_eq_getElem _ _ h]

theorem dedupKeepOrder_own (o : Option String) :
    dedupKeepOrder (match o with | some u => [u] | none => []) =
      (match o with | some u => [u] | none => []) := by
  cases o <;> rfl

theorem dedupKeepOrder_append (a b : List String) :
    dedupKeepOrder (a ++ b) =
      b.foldl (fun acc u => if u ∈ acc then acc else acc ++ [u])
        (dedupKeepOrder a) :=
  List.foldl_append _ _ a b

theorem item_update_merged_twice (it : Item) (a b : Option (List String)) :
    ({ { it with merged_urls := a } with merged_urls := b } : Item) =
      { it with merged_urls := b } := rfl

theorem item_set_merged_self (it : Item) (cur : List String)
    (h : it.merged_urls = some cur) :
    ({ it with merged_urls := some cur } : Item) = it := by
  cases it
  simp_all

/-- Expected merged URL list of claim C10: the survivor's own truthy
URL first, then the truthy URLs of the items removed onto it, in
ascending original order, first-occurrence de-duplicated. -/
def semExpectedUrls (keepMask : List Bool) (repFor : List Nat)
    (items : List Item) (i : Nat) : List String :=
  dedupKeepOrder
    ((match truthyUrl (items.getD i default) with
      | some u => [u]
      | none => []) ++
     (((List.range items.length).filter (fun j =>
        (!keepMask.getD j false) && (repFor.getD j 0 == i))).filterMap
       (fun j => truthyUrl (items.getD j default))))

/-- Characterization of the URL-attachment loop relative to one
position of the filtered list. -/
theorem semAttach_fold (items : List Item) (keep : List Bool)
    (rep : List Nat) :
    ∀ (js : List Nat) (fl : List Item) (k : Nat) (cur : List String),
      k < fl.length →
      (fl.getD k default).merged_urls = some cur →
      (∀ j ∈ js, keep.getD j false = false →
        semIdxMap keep (rep.getD j 0) < fl.length) →
      (js.foldl (fun fl2 j =>
        if keep.getD j false = false then
          match truthyUrl (items.getD j default) with
          | some u => listModify (addMergedUrl u)
              (semIdxMap keep (rep.getD j 0)) fl2
          | none => fl2
        else fl2) fl).getD k default =
      { fl.getD k default with
        merged_urls := some (((js.filter (fun j => (!keep.getD j false) &&
            (semIdxMap keep (rep.getD j 0) == k))).filterMap
          (fun j => truthyUrl (items.getD j default))).foldl
          (fun acc u => if u ∈ acc then acc else acc ++ [u]) cur) } := by
  intro js
  induction js with
  | nil =>
    intro fl k cur _ hmerged _
    simp only [List.foldl_nil, List.filter_nil, List.filterMap_nil]
    exact (item_set_merged_self _ _ hmerged).symm
  | cons j js ih =>
    intro fl k cur hk hmerged hpos
    simp only [List.foldl_cons, List.filter_cons]
    by_cases hkj : keep.getD j false = false
    · rw [if_pos hkj]
      rcases hurl : truthyUrl (items.getD j default) with _ | u
      · have hres := ih fl k cur hk hmerged
          (fun j2 hj2 => hpos j2 (List.mem_cons_of_mem j hj2))
        rw [hres]
        by_cases hsel : ((!keep.getD j false) &&
            (semIdxMap keep (rep.getD j 0) == k)) = true
        · rw [if_pos hsel]
          have hurl2 : truthyUrl (items[j]?.getD default) = none := by
            rw [← List.get?_eq_getElem?]
            exact hurl
          simp [List.filterMap_cons, hurl2]
        · rw [if_neg hsel]
      · have hp := hpos j (List.mem_cons_self j js) hkj
        by_cases hpk : semIdxMap keep (rep.getD j 0) = k
        · rw [hpk] at hp ⊢
          have hfl : (listModify (addMergedUrl u) k fl).getD k default =
              addMergedUrl u (fl.getD k default) :=
            listModify_getD_self _ k fl hk
          have hmerged2 : ((listModify (addMergedUrl u) k fl).getD k
              default).merged_urls =
              some (if u ∈ cur then cur else cur ++ [u]) := by
            rw [hfl]
            unfold addMergedUrl
            rw [hmerged]
            rfl
          have hres := ih (listModify (addMergedUrl u) k fl) k
            (if u ∈ cur then cur else cur ++ [u])
            (by rw [listModify_length]; exact hk) hmerged2
            (fun j2 hj2 hkj2 => by
              rw [listModify_length]
              exact hpos j2 (List.mem_cons_of_mem j hj2) hkj2)
          rw [hres, hfl]
          have hkj2 : keep[j]?.getD false = false := by
            rw [← List.get?_eq_getElem?]
            exact hkj
          have hurl2 : truthyUrl (items[j]?.getD default) = some u := by
            rw [← List.get?_eq_getElem?]
            exact hurl
          simp [addMergedUrl, hmerged, hkj2, hurl2, List.filterMap_cons,
            List.foldl_cons]
        · have hfl : (listModify (addMergedUrl u)
              (semIdxMap keep (rep.getD j 0)) fl).getD k default =
              fl.getD k default :=
            listModify_getD_ne _ _ fl k (fun hh => hpk hh.symm)
          have hres := ih (listModify (addMergedUrl u)
              (semIdxMap keep (rep.getD j 0)) fl) k cur
            (by rw [listModify_length]; exact hk)
            (by rw [hfl]; exact hmerged)
            (fun j2 hj2 hkj2 => by
              rw [listModify_length]
              exact hpos j2 (List.mem_cons_of_mem j hj2) hkj2)
          rw [hres, hfl]
          have hpk2 : (semIdxMap keep (rep[j]?.getD 0) == k) = false := by
            rw [← List.get?_eq_getElem?]
            exact beq_eq_false_iff_ne.mpr hpk
          simp [hpk2]
    · rw [if_neg hkj]
      have hres := ih fl k cur hk hmerged
        (fun j2 hj2 => hpos j2 (List.mem_cons_of_mem j hj2))
      rw [hres]
      have hkt : keep.getD j false = true := by
        rcases hb : keep.getD j false with _ | _
        · exact absurd hb hkj
        · rfl
      have hkt2 : keep[j]?.getD false = true := by
        rw [← List.get?_eq_getElem?]
        exact hkt
      simp [hkt2]

/-- Length preservation of the URL-attachment loop. -/
theorem semAttach_len_fold (items : List Item) (keep : List Bool)
    (rep : List Nat) :
    ∀ (js : List Nat) (fl : List Item),
      (js.foldl (fun fl2 j =>
        if keep.getD j false = false then
          match truthyUrl (items.getD j default) with
          | some u => listModify (addMergedUrl u)
              (semIdxMap keep (rep.getD j 0)) fl2
          | none => fl2
        else fl2) fl).length = fl.length := by
  intro js
  induction js with
  | nil => intro fl; rfl
  | cons j js ih =>
    intro fl
    simp only [List.foldl_cons]
    by_cases hkj : keep.getD j false = false
    · rw [if_pos hkj]
      cases truthyUrl (items.getD j default) with
      | none => exact ih _
      | some u => exact (ih _).trans (listModify_length _ _ fl)
    · rw [if_neg hkj]
      exact ih fl

/-- Concrete cosine stand-in for the C10 witness: identical embedding
vectors have similarity 1, distinct ones 0. -/
def c10CosSim : List ℚ → List ℚ → ℚ :=
  fun a b => if a = b then 1 else 0

/-- Embeddings for the C10 witness: two identical vectors. -/
def c10Embs : List (List ℚ) := [[1], [1]]

/-- Items for the C10 witness.  The first item carries a stale input
merged_urls value that the semantic stage must discard. -/
def c10Items : List Item :=
  [{ text := "A", url := some "a.example", timestamp := none,
     merged_urls := some ["stale.example"], urls := none },
   { text := "B", url := some "b.example", timestamp := none,
     merged_urls := none, urls := none }]

/-- C10: for every semantic dedup call with merge_sources true and
matching lengths, the output item standing at the filtered position of
any surviving original index i is exactly the input item at i with its
merged_urls field REPLACED by the survivor's own truthy url (if any)
followed by the truthy urls of the items removed onto representative i
in ascending original order, first-occurrence de-duplicated: any
merged_urls value already present on the input item is discarded, and
every field other than merged_urls is copied unchanged. -/
theorem C10_semantic_merged_urls
    (cosSim : List ℚ → List ℚ → ℚ) (embs : List (List ℚ)) (items : List Item)
    (t : ℚ) (keep : List Bool) (rep : List Nat) (i : Nat)
    (hlen : embs.length = items.length)
    (hkr : semKernel (fun a b => cosSim (embs.getD a []) (embs.getD b []))
        embs.length t = (keep, rep))
    (hi : i < items.length)
    (hkeep : keep.getD i false = true) :
    ∃ e2 out,
      dedupSemantic cosSim embs items t true = Except.ok (e2, out) ∧
      semIdxMap keep i < out.length ∧
      out.getD (semIdxMap keep i) default =
        { items.getD i default with
          merged_urls := some (semExpectedUrls keep rep items i) } := by
  refine ⟨maskFilter embs keep,
    semAttach items keep rep (semFiltered items keep true), ?_, ?_, ?_⟩
  · unfold dedupSemantic
    rw [if_neg (fun hcon => hcon hlen), hkr]
    rfl
  · have hlenA : (semAttach items keep rep
        (semFiltered items keep true)).length =
        (semFiltered items keep true).length :=
      semAttach_len_fold items keep rep (List.range items.length)
        (semFiltered items keep true)
    rw [hlenA]
    have hflLen : (semFiltered items keep true).length =
        ((List.range items.length).filter
          (fun k => keep.getD k false)).length := by
      unfold semFiltered
      rw [List.length_map]
    rw [hflLen]
    exact idxMap_lt_len keep items.length i hi hkeep
  · have hflLen : (semFiltered items keep true).length =
        ((List.range items.length).filter
          (fun k => keep.getD k false)).length := by
      unfold semFiltered
      rw [List.length_map]
    have hklen : semIdxMap keep i <
        ((List.range items.length).filter
          (fun k => keep.getD k false)).length :=
      idxMap_lt_len keep items.length i hi hkeep
    have hk : semIdxMap keep i < (semFiltered items keep true).length := by
      rw [hflLen]
      exact hklen
    have hgetD : (semFiltered items keep true).getD (semIdxMap keep i)
        default =
        { items.getD i default with
          merged_urls := some (dedupKeepOrder
            (match truthyUrl (items.getD i default) with
             | some u => [u] | none => [])) } := by
      unfold semFiltered
      rw [getD_map_item _ _ _ hklen,
        idxMap_getD keep items.length i hi hkeep]
      rfl
    have hmerged : ((semFiltered items keep true).getD (semIdxMap keep i)
        default).merged_urls =
        some (dedupKeepOrder
          (match truthyUrl (items.getD i default) with
           | some u => [u] | none => [])) := by
      rw [hgetD]
    have hpos : ∀ j ∈ List.range items.length,
        keep.getD j false = false →
        semIdxMap keep (rep.getD j 0) <
          (semFiltered items keep true).length := by
      intro j hj hjf
      have hjlt : j < items.length := List.mem_range.mp hj
      have hjn : j < embs.length := by
        rw [hlen]
        exact hjlt
      have hinv := semKernel_inv
        (fun a b => cosSim (embs.getD a []) (embs.getD b []))
        embs.length t j hjn
      rw [hkr] at hinv
      obtain ⟨hlt, hkrep⟩ := hinv hjf
      have hlt2 : rep.getD j 0 < j := hlt
      have hkrep2 : keep.getD (rep.getD j 0) false = true := hkrep
      rw [hflLen]
      exact idxMap_lt_len keep items.length (rep.getD j 0)
        (by omega) hkrep2
    have hfilter : (List.range items.length).filter (fun j =>
        (!keep.getD j false) &&
          (semIdxMap keep (rep.getD j 0) == semIdxMap keep i)) =
        (List.range items.length).filter (fun j =>
        (!keep.getD j false) && (rep.getD j 0 == i)) := by
      apply List.filter_congr
      intro j hj
      have hjlt : j < items.length := List.mem_range.mp hj
      rcases hb : keep.getD j false with _ | _
      · have hjn : j < embs.length := by
          rw [hlen]
          exact hjlt
        have hinv := semKernel_inv
          (fun a b => cosSim (embs.getD a []) (embs.getD b []))
          embs.length t j hjn
        rw [hkr] at hinv
        obtain ⟨hlt, hkrep⟩ := hinv hb
        have hkrep2 : keep.getD (rep.getD j 0) false = true := hkrep
        simp only [Bool.not_false, Bool.true_and]
        rcases eq_or_ne (rep.getD j 0) i with heq | hne
        · rw [heq]
          simp
        · rw [beq_eq_false_iff_ne.mpr hne,
            beq_eq_false_iff_ne.mpr
              (fun hc => hne (idxMap_inj keep _ _ hkrep2 hkeep hc))]
      · simp
    have hurls : (((List.range items.length).filter (fun j =>
          (!keep.getD j false) &&
            (semIdxMap keep (rep.getD j 0) == semIdxMap keep i))).filterMap
          (fun j => truthyUrl (items.getD j default))).foldl
          (fun acc u => if u ∈ acc then acc else acc ++ [u])
          (dedupKeepOrder
            (match truthyUrl (items.getD i default) with
             | some u => [u] | none => [])) =
        semExpectedUrls keep rep items i := by
      unfold semExpectedUrls
      rw [dedupKeepOrder_append, hfilter]
    have hmain := semAttach_fold items keep rep (List.range items.length)
      (semFiltered items keep true) (semIdxMap keep i)
      (dedupKeepOrder
        (match truthyUrl (items.getD i default) with
         | some u => [u] | none => [])) hk hmerged hpos
    rw [← hurls]
    unfold semAttach
    rw [hmain, hgetD]

/-- Closed witness for C10_semantic_merged_urls: two items with equal
embeddings, the second removed onto the first; the survivor's stale
input merged_urls is replaced by its own url followed by the removed
item's url. -/
theorem C10_semantic_merged_urls_witness :
    ∃ e2 out,
      dedupSemantic c10CosSim c10Embs c10Items (1/2) true =
        Except.ok (e2, out) ∧
      semIdxMap [true, false] 0 < out.length ∧
      out.getD (semIdxMap [true, false] 0) default =
        { c10Items.getD 0 default with
          merged_urls :=
            some (semExpectedUrls [true, false] [0, 0] c10Items 0) } :=
  C10_semantic_merged_urls c10CosSim c10Embs c10Items (1/2)
    [true, false] [0, 0] 0 (by decide) (by decide) (by decide) (by decide)

end Briefing
